import Mathlib

/-!
# EffectLoudness and RealtimeEffectState

A shallow embedding of `src/effects/Loudness.cpp` (the two-pass block
processing of `EffectLoudness`) and of the data members of
`src/effects/RealtimeEffectState.h`.

* Sample positions (`sampleCount`) are `Int`, block lengths (`size_t`) are `Nat`.
* Times and the progress value are rationals: the code only compares times
  and the progress value is followed in exact arithmetic.
* The sample type `α` is abstract, with the multiplication and division the
  code applies to it.
* The collaborators that live outside these two files (`WaveTrack`,
  `TrackList`, the progress dialog, a few helpers) are modelled by the
  structures `WaveTrack`, `Host` and by the definitions whose comment says so.
* The state keeps two traces: `log`, the calls made to the collaborators, and
  `accesses`, the elements of `mTrackBuffer` that were touched.
* Loops that the code does not bound take a `fuel` argument; the result
  `none` means that the fuel ran out before the loop ended.
-/

namespace Loudness

/-! ## Collaborators -/

/-- A call made by the effect: `load` is an entry of `LoadBufferBlock`,
`get` and `set` are `WaveTrack::Get` and `WaveTrack::Set` on a channel with
buffer slot `slot`, `progress` is a call of `TotalProgress` with the value
passed and the answer (true: the user cancelled). -/
inductive Event where
  | load (pos : Int) (len : Nat)
  | get (chan : Nat) (slot : Nat) (pos : Int) (len : Nat)
  | set (chan : Nat) (slot : Nat) (pos : Int) (len : Nat)
  | progress (val : ℚ) (cancelled : Bool)
  deriving DecidableEq

/-- A use of `mTrackBuffer[slot]`: the elements `[first, first + count)` are
read or written while the slot holds `size` elements (`none`: not
allocated). -/
structure Access where
  slot : Nat
  first : Nat
  count : Nat
  size : Option Nat
  deriving DecidableEq

/-- Modelled from the spec: `WaveTrack` is declared outside the given sources.
The fields are the member functions that Loudness.cpp calls; `id` names the
channel in the sample store and `numCopied pos len` is the count that
`Get` reports through its last argument. -/
structure WaveTrack where
  id : Nat
  GetSelected : Bool
  GetStartTime : ℚ
  GetEndTime : ℚ
  GetRate : ℚ
  GetMaxBlockSize : Nat
  GetBestBlockSize : Int → Nat
  TimeToLongSamples : ℚ → Int
  numCopied : Int → Nat → Int

/-- Modelled from the spec: the track list is declared outside the given
sources. It is the list of channel groups in project order; the first
channel of a group is its leader (`Track::IsLeader`) and
`TrackList::Channels(leader)` is the whole group. -/
abbrev TrackList := List (List WaveTrack)

/-- The services of the host: the progress dialog (its answer may depend on
everything that happened before) and the `DB_TO_LINEAR` conversion, whose
definition is outside the given sources. -/
structure Host (α : Type) where
  TotalProgress : List Event → ℚ → Bool
  DB_TO_LINEAR : ℚ → α

/-! ## The effect -/

/-- The value of `kNormalizeTargets::kLoudness`. -/
def kLoudness : Int := 0

/-- The value of `kNormalizeTargets::kRMS`. -/
def kRMS : Int := 1

/-- The minimum of the parameter `LUFSLevel` (Loudness.cpp:48). -/
def MIN_LUFSLevel : ℚ := -145

/-- The maximum of the parameter `LUFSLevel` (Loudness.cpp:48). -/
def MAX_LUFSLevel : ℚ := 0

/-- The minimum of the parameter `RMSLevel` (Loudness.cpp:49). -/
def MIN_RMSLevel : ℚ := -145

/-- The maximum of the parameter `RMSLevel` (Loudness.cpp:49). -/
def MAX_RMSLevel : ℚ := 0

/-- The members of `EffectLoudness` (and of its base class) that `Process`
uses, the sample data of `mOutputTracks` (`samples chan pos`) and the two
traces. `mTrackBuffer slot i` is element `i` of `mTrackBuffer[slot]` and
`mTrackBufferSize slot` is the number of elements allocated for it. -/
structure EffectLoudness (α : Type) where
  mStereoInd : Bool
  mLUFSLevel : ℚ
  mRMSLevel : ℚ
  mNormalizeTo : Int
  mT0 : ℚ
  mT1 : ℚ
  mNumTracks : Nat
  mCurT0 : ℚ
  mCurT1 : ℚ
  mCurRate : ℚ
  mMult : α
  mRatio : α
  mProgressVal : ℚ
  mSteps : Nat
  mTrackLen : ℚ
  mCount : Nat
  mTrackBuffer : Nat → Nat → α
  mTrackBufferSize : Nat → Option Nat
  mTrackBufferLen : Nat
  mTrackBufferCapacity : Nat
  mProcStereo : Bool
  samples : Nat → Int → α
  log : List Event
  accesses : List Access

/-- Modelled from the spec: `TrapDouble` is declared outside the given
sources; it clamps `x` to `[min, max]`. -/
def TrapDouble (x min max : ℚ) : ℚ :=
  if x ≤ min then min else if x ≥ max then max else x

/-- Modelled from the spec: `limitSampleBufferSize` is declared outside the
given sources; the block length is the minimum of the natural block size and
the capacity. -/
def limitSampleBufferSize (bufferSize : Nat) (limit : Nat) : Nat :=
  min bufferSize limit

/-- The conversion `sampleCount::as_size_t` of a 64-bit signed count to a
64-bit `size_t`: a count that is not negative keeps its value, a negative one
wraps around `2 ^ 64`. -/
def as_size_t (v : Int) : Nat := if 0 ≤ v then v.toNat else (v + 2 ^ 64).toNat

/-- The decibel value that `Process` passes to `DB_TO_LINEAR` in loudness
mode (Loudness.cpp:169). -/
def loudnessDb (mLUFSLevel : ℚ) : ℚ :=
  TrapDouble (mLUFSLevel * 2) MIN_LUFSLevel MAX_LUFSLevel

/-- The range `Selected<WaveTrack>() + &Track::Any`, each track with the
value of `IsLeader()`. -/
def selectedTracks (tracks : TrackList) : List (WaveTrack × Bool) :=
  (tracks.flatMap fun g =>
    match g with
    | [] => []
    | t :: rest => (t, true) :: rest.map fun c => (c, false)).filter
      fun p => p.1.GetSelected

/-- The tracks that the loop of `Process` visits (Loudness.cpp:179), each
with the range computed at line 202: every selected track with
`SingletonRange(track)` when `mStereoInd`, every selected leader with
`Channels(track)` otherwise. -/
def processRanges (tracks : TrackList) (mStereoInd : Bool) :
    List (WaveTrack × List WaveTrack) :=
  if mStereoInd then
    (selectedTracks tracks).map fun p => (p.1, [p.1])
  else
    tracks.filterMap fun g =>
      match g with
      | [] => none
      | t :: rest => if t.GetSelected then some (t, t :: rest) else none

variable {α : Type}

/-- Modelled from the spec: `WaveTrack::Get` with `fillZero`. It copies `len`
samples from position `pos` of the channel to `mTrackBuffer[slot]` and
reports `numCopied pos len`. -/
def WaveTrack.Get (ch : WaveTrack) (slot : Nat) (pos : Int) (len : Nat)
    (st : EffectLoudness α) : Int × EffectLoudness α :=
  (ch.numCopied pos len,
    { st with
      mTrackBuffer := fun k i =>
        if k = slot ∧ i < len then st.samples ch.id (pos + (i : Int))
        else st.mTrackBuffer k i
      log := st.log ++ [Event.get ch.id slot pos len]
      accesses := st.accesses ++ [⟨slot, 0, len, st.mTrackBufferSize slot⟩] })

/-- Modelled from the spec: `WaveTrack::Set`. It copies `len` samples of
`mTrackBuffer[slot]` to position `pos` of the channel. -/
def WaveTrack.Set (ch : WaveTrack) (slot : Nat) (pos : Int) (len : Nat)
    (st : EffectLoudness α) : EffectLoudness α :=
  { st with
    samples := fun c p =>
      if c = ch.id ∧ pos ≤ p ∧ p < pos + (len : Int) then
        st.mTrackBuffer slot (p - pos).toNat
      else st.samples c p
    log := st.log ++ [Event.set ch.id slot pos len]
    accesses := st.accesses ++ [⟨slot, 0, len, st.mTrackBufferSize slot⟩] }

/-- The loop of `AllocBuffers` (Loudness.cpp:318-326); the accumulator is
`(mTrackBufferCapacity, stereoTrackFound, maxSampleRate)`. -/
def AllocBuffers.scan (sel : List (WaveTrack × Bool)) : Nat × Bool × ℚ :=
  sel.foldl
    (fun acc p =>
      (max acc.1 p.1.GetMaxBlockSize,
        (if p.2 then true else acc.2.1),
        max acc.2.2 p.1.GetRate))
    (0, false, 0)

/-- `EffectLoudness::AllocBuffers` (Loudness.cpp:311-336). -/
def AllocBuffers (tracks : TrackList) (st : EffectLoudness α) : EffectLoudness α :=
  let r := AllocBuffers.scan (selectedTracks tracks)
  let st1 := { st with mTrackBufferCapacity := r.1, mProcStereo := false }
  let st2 := { st1 with
    mTrackBufferSize := fun k =>
      if k = 0 then some st1.mTrackBufferCapacity else st1.mTrackBufferSize k }
  if !st2.mStereoInd && r.2.1 then
    { st2 with
      mTrackBufferSize := fun k =>
        if k = 1 then some st2.mTrackBufferCapacity else st2.mTrackBufferSize k }
  else st2

/-- `EffectLoudness::FreeBuffers` (Loudness.cpp:338-343). -/
def FreeBuffers (st : EffectLoudness α) : EffectLoudness α :=
  { st with mTrackBufferSize := fun k => if k = 0 ∨ k = 1 then none else st.mTrackBufferSize k }

/-- `EffectLoudness::InitTrackAnalysis` (Loudness.cpp:345-349). -/
def InitTrackAnalysis (st : EffectLoudness α) : EffectLoudness α :=
  { st with mCount := 0 }

/-- `EffectLoudness::UpdateProgress` (Loudness.cpp:475-480). -/
def UpdateProgress (host : Host α) (st : EffectLoudness α) : Bool × EffectLoudness α :=
  let v := st.mProgressVal +
    ((1 + (if st.mProcStereo then 1 else 0) : ℚ) * (st.mTrackBufferLen : ℚ)
      / ((st.mNumTracks : ℚ) * (st.mSteps : ℚ) * st.mTrackLen))
  let cancelled := host.TotalProgress st.log v
  (!cancelled,
    { st with mProgressVal := v, log := st.log ++ [Event.progress v cancelled] })

/-- The loop of `LoadBufferBlock` (Loudness.cpp:421-433) from channel index
`idx` on, with the current value of the local `read_size`. -/
def LoadBufferBlock.loop (pos : Int) (len : Nat) :
    List WaveTrack → Nat → Int → EffectLoudness α → Bool × EffectLoudness α
  | [], _, _, st => (true, st)
  | channel :: rest, idx, _, st =>
    let r := channel.Get idx pos len st
    let read_size := r.1
    let st1 := { r.2 with mTrackBufferLen := as_size_t read_size }
    if as_size_t read_size ≠ st1.mTrackBufferLen ∧ read_size ≠ -1 then (false, st1)
    else LoadBufferBlock.loop pos len rest (idx + 1) read_size st1

/-- `EffectLoudness::LoadBufferBlock` (Loudness.cpp:415-435). -/
def LoadBufferBlock (range : List WaveTrack) (pos : Int) (len : Nat)
    (st : EffectLoudness α) : Bool × EffectLoudness α :=
  LoadBufferBlock.loop pos len range 0 (-1)
    { st with log := st.log ++ [Event.load pos len] }

/-- `EffectLoudness::AnalyseBufferBlock` (Loudness.cpp:439-447). -/
def AnalyseBufferBlock (host : Host α) (st : EffectLoudness α) : Bool × EffectLoudness α :=
  let st1 := { st with mCount := st.mCount + st.mTrackBufferLen }
  let r := UpdateProgress host st1
  if !r.1 then (false, r.2) else (true, r.2)

/-- The body of the loop of `ProcessBufferBlock` for index `i`
(Loudness.cpp:453-455): element `i` of slot 0 is read and written, and
element `i` of slot 1 when `mProcStereo`. -/
def ProcessBufferBlock.body [Mul α] (st : EffectLoudness α) (i : Nat) : EffectLoudness α :=
  let st1 := { st with
    mTrackBuffer := fun k j =>
      if k = 0 ∧ j = i then st.mTrackBuffer 0 i * st.mMult else st.mTrackBuffer k j
    accesses := st.accesses ++ [(⟨0, i, 1, st.mTrackBufferSize 0⟩ : Access)] }
  if st1.mProcStereo then
    { st1 with
      mTrackBuffer := fun k j =>
        if k = 1 ∧ j = i then st1.mTrackBuffer 1 i * st1.mMult else st1.mTrackBuffer k j
      accesses := st1.accesses ++ [(⟨1, i, 1, st1.mTrackBufferSize 1⟩ : Access)] }
  else st1

/-- `EffectLoudness::ProcessBufferBlock` (Loudness.cpp:449-461). -/
def ProcessBufferBlock [Mul α] (host : Host α) (st : EffectLoudness α) :
    Bool × EffectLoudness α :=
  let st1 := (List.range st.mTrackBufferLen).foldl ProcessBufferBlock.body st
  let r := UpdateProgress host st1
  if !r.1 then (false, r.2) else (true, r.2)

/-- The loop of `StoreBufferBlock` (Loudness.cpp:467-472) from channel index
`idx` on. -/
def StoreBufferBlock.loop (pos : Int) (len : Nat) :
    List WaveTrack → Nat → EffectLoudness α → EffectLoudness α
  | [], _, st => st
  | channel :: rest, idx, st =>
    StoreBufferBlock.loop pos len rest (idx + 1) (channel.Set idx pos len st)

/-- `EffectLoudness::StoreBufferBlock` (Loudness.cpp:463-473). -/
def StoreBufferBlock (range : List WaveTrack) (pos : Int) (len : Nat)
    (st : EffectLoudness α) : EffectLoudness α :=
  StoreBufferBlock.loop pos len range 0 st

/-- The length of the block that the loop of `ProcessOne` takes at cursor `s`
(Loudness.cpp:381-386). -/
def ProcessOne.blockLen (track : WaveTrack) (sEnd s : Int) (st : EffectLoudness α) : Nat :=
  let blockLen := limitSampleBufferSize (track.GetBestBlockSize s) st.mTrackBufferCapacity
  let remainingLen := as_size_t (sEnd - s)
  if blockLen > remainingLen then remainingLen else blockLen

/-- One turn of the loop of `ProcessOne` at cursor `s` (Loudness.cpp:379-405):
the flag is false when the turn ends in `return false`. The call `sleep(1)`
only takes time. -/
def ProcessOne.turn [Mul α] (host : Host α) (range : List WaveTrack) (analyse : Bool)
    (s : Int) (blockLen : Nat) (st : EffectLoudness α) : Bool × EffectLoudness α :=
  let r := LoadBufferBlock range s blockLen st
  if !r.1 then (false, r.2)
  else
    let r2 := if analyse then AnalyseBufferBlock host r.2 else ProcessBufferBlock host r.2
    if !r2.1 then (false, r2.2)
    else if !analyse then (true, StoreBufferBlock range s blockLen r2.2)
    else (true, r2.2)

/-- The loop `while(s < end)` of `ProcessOne` (Loudness.cpp:377-412). -/
def ProcessOne.loop [Mul α] (host : Host α) (range : List WaveTrack) (track : WaveTrack)
    (analyse : Bool) (sEnd : Int) :
    Nat → Int → EffectLoudness α → Option Bool × EffectLoudness α
  | 0, s, st => if s < sEnd then (none, st) else (some true, st)
  | fuel + 1, s, st =>
    if s < sEnd then
      let blockLen := ProcessOne.blockLen track sEnd s st
      let r := ProcessOne.turn host range analyse s blockLen st
      if !r.1 then (some false, r.2)
      else ProcessOne.loop host range track analyse sEnd fuel (s + (blockLen : Int)) r.2
    else (some true, st)

/-- `EffectLoudness::ProcessOne` (Loudness.cpp:357-413). The code
dereferences `range.begin()`, so an empty range gives no result. -/
def ProcessOne [Mul α] (host : Host α) (fuel : Nat) (range : List WaveTrack) (analyse : Bool)
    (st : EffectLoudness α) : Option Bool × EffectLoudness α :=
  match range with
  | [] => (none, st)
  | track :: _ =>
    let start := track.TimeToLongSamples st.mCurT0
    let sEnd := track.TimeToLongSamples st.mCurT1
    let st1 := { st with mTrackLen := ((sEnd - start : Int) : ℚ) }
    if st1.mCurT1 ≤ st1.mCurT0 then (some false, st1)
    else ProcessOne.loop host range track analyse sEnd fuel start st1

/-- The statements of the loop body of `Process` that come before the
analysis pass (Loudness.cpp:184-208). -/
def Process.prepare (track : WaveTrack) (range : List WaveTrack)
    (st : EffectLoudness α) : EffectLoudness α :=
  let trackStart := track.GetStartTime
  let trackEnd := track.GetEndTime
  InitTrackAnalysis
    { st with
      mCurT0 := if st.mT0 < trackStart then trackStart else st.mT0
      mCurT1 := if st.mT1 > trackEnd then trackEnd else st.mT1
      mCurRate := track.GetRate
      mSteps := 2
      mProcStereo := decide (range.length > 1) }

/-- The statements of the loop body of `Process` between the two passes
(Loudness.cpp:217-219). -/
def Process.setMult [Div α] [One α] (st : EffectLoudness α) : EffectLoudness α :=
  let extent : α := 1
  { st with mMult := st.mRatio / extent }

/-- The loop over the tracks of `Process` (Loudness.cpp:179-228); the result
is `bGoodResult`. -/
def Process.loop [Mul α] [Div α] [One α] (host : Host α) (fuel : Nat) :
    List (WaveTrack × List WaveTrack) → EffectLoudness α → Option Bool × EffectLoudness α
  | [], st => (some true, st)
  | (track, range) :: rest, st =>
    let st1 := Process.prepare track range st
    match ProcessOne host fuel range true st1 with
    | (none, st2) => (none, st2)
    | (some false, st2) => (some false, st2)
    | (some true, st2) =>
      match ProcessOne host fuel range false (Process.setMult st2) with
      | (none, st4) => (none, st4)
      | (some false, st4) => (some false, st4)
      | (some true, st4) => Process.loop host fuel rest st4

/-- The result of the analysis pass of the loop body of `Process` for a
track (Loudness.cpp:184-209). -/
def Process.analysed [Mul α] (host : Host α) (fuel : Nat) (track : WaveTrack)
    (range : List WaveTrack) (st : EffectLoudness α) : Option Bool × EffectLoudness α :=
  ProcessOne host fuel range true (Process.prepare track range st)

/-- The result of the apply pass of the loop body of `Process` for a track
whose analysis pass succeeded (Loudness.cpp:217-222). -/
def Process.applied [Mul α] [Div α] [One α] (host : Host α) (fuel : Nat) (track : WaveTrack)
    (range : List WaveTrack) (st : EffectLoudness α) : Option Bool × EffectLoudness α :=
  ProcessOne host fuel range false (Process.setMult (Process.analysed host fuel track range st).2)

/-- The first statement of `Process` (Loudness.cpp:166-169). -/
def Process.setRatio (host : Host α) (st : EffectLoudness α) : EffectLoudness α :=
  if st.mNormalizeTo = kLoudness then
    { st with mRatio := host.DB_TO_LINEAR (loudnessDb st.mLUFSLevel) }
  else st

/-- The statements of `Process` that come before the loop over the tracks
(Loudness.cpp:166-177). -/
def Process.start (host : Host α) (tracks : TrackList) (st : EffectLoudness α) :
    EffectLoudness α :=
  let st1 := Process.setRatio host st
  let st2 := AllocBuffers tracks st1
  { st2 with mProgressVal := 0 }

/-- `EffectLoudness::Process` (Loudness.cpp:164-233). The state holds the
samples of `mOutputTracks`; `CopyInputTracks` and `ReplaceProcessedTracks`
belong to the base class. -/
def Process [Mul α] [Div α] [One α] (host : Host α) (fuel : Nat) (tracks : TrackList)
    (st : EffectLoudness α) : Option Bool × EffectLoudness α :=
  let st3 := Process.start host tracks st
  match Process.loop host fuel (processRanges tracks st3.mStereoInd) st3 with
  | (none, st4) => (none, st4)
  | (some bGoodResult, st4) => (some bGoodResult, FreeBuffers st4)

/-! ## RealtimeEffectState -/

/-- The data members of `RealtimeEffectState` (RealtimeEffectState.h:35-40);
`mEffect` is the identity of the wrapped effect. -/
structure RealtimeEffectState where
  mEffect : Nat
  mGroupProcessor : List Int
  mCurrentProcessor : Int
  mSuspendCount : Int

/-- The constructor `RealtimeEffectState(effect)`: the members take their
default member initializers, `mSuspendCount{ 1 }` (RealtimeEffectState.h:40);
`mCurrentProcessor` has none and is given 0 here. -/
def RealtimeEffectState.new (effect : Nat) : RealtimeEffectState :=
  { mEffect := effect, mGroupProcessor := [], mCurrentProcessor := 0, mSuspendCount := 1 }

/-- Modelled from the spec: `IsActive` is only declared in the given header;
"true iff suspend counter == 0". -/
def RealtimeEffectState.IsActive (s : RealtimeEffectState) : Bool :=
  decide (s.mSuspendCount = 0)

/-! ## Vocabulary of the statements -/

/-- The members that no statement of the track loop of `Process` assigns. -/
structure Kept (a b : EffectLoudness α) : Prop where
  mStereoInd : a.mStereoInd = b.mStereoInd
  mLUFSLevel : a.mLUFSLevel = b.mLUFSLevel
  mRMSLevel : a.mRMSLevel = b.mRMSLevel
  mNormalizeTo : a.mNormalizeTo = b.mNormalizeTo
  mT0 : a.mT0 = b.mT0
  mT1 : a.mT1 = b.mT1
  mNumTracks : a.mNumTracks = b.mNumTracks
  mRatio : a.mRatio = b.mRatio
  mTrackBufferSize : a.mTrackBufferSize = b.mTrackBufferSize
  mTrackBufferCapacity : a.mTrackBufferCapacity = b.mTrackBufferCapacity

/-- The members that no statement of the block loop of `ProcessOne` assigns. -/
structure PassKept (a b : EffectLoudness α) extends Kept a b : Prop where
  mCurT0 : a.mCurT0 = b.mCurT0
  mCurT1 : a.mCurT1 = b.mCurT1
  mCurRate : a.mCurRate = b.mCurRate
  mMult : a.mMult = b.mMult
  mSteps : a.mSteps = b.mSteps
  mTrackLen : a.mTrackLen = b.mTrackLen
  mProcStereo : a.mProcStereo = b.mProcStereo

/-- The `get` calls of one `LoadBufferBlock`, in order, from slot `idx` on. -/
def getEvents (pos : Int) (len : Nat) : List WaveTrack → Nat → List Event
  | [], _ => []
  | ch :: rest, idx => Event.get ch.id idx pos len :: getEvents pos len rest (idx + 1)

/-- The `set` calls of one `StoreBufferBlock`, in order, from slot `idx` on. -/
def setEvents (pos : Int) (len : Nat) : List WaveTrack → Nat → List Event
  | [], _ => []
  | ch :: rest, idx => Event.set ch.id idx pos len :: setEvents pos len rest (idx + 1)

/-- The buffer uses of one `LoadBufferBlock` or `StoreBufferBlock` over
`n` channels, from slot `idx` on. -/
def slotAccesses (len : Nat) (size : Nat → Option Nat) : Nat → Nat → List Access
  | 0, _ => []
  | n + 1, idx => ⟨idx, 0, len, size idx⟩ :: slotAccesses len size n (idx + 1)

/-- The buffer uses of the loop of `ProcessBufferBlock` over the indices
below `n`, in order: element `i` of slot 0 and, when `stereo`, of slot 1. -/
def scaleAccesses (stereo : Bool) (size : Nat → Option Nat) : Nat → List Access
  | 0 => []
  | n + 1 =>
    scaleAccesses stereo size n ++
      (⟨0, n, 1, size 0⟩ :: if stereo then [⟨1, n, 1, size 1⟩] else [])

/-- The blocks `(position, length)` passed to `LoadBufferBlock` in a trace. -/
def loads : List Event → List (Int × Nat)
  | [] => []
  | Event.load pos len :: rest => (pos, len) :: loads rest
  | _ :: rest => loads rest

/-- The progress values passed to the progress callback in a trace. -/
def reports : List Event → List ℚ
  | [] => []
  | Event.progress v _ :: rest => v :: reports rest
  | _ :: rest => reports rest

/-- The event is a progress report that the callback answered by cancelling. -/
def Event.isCancel : Event → Bool
  | Event.progress _ c => c
  | _ => false

/-- The event is a call of `WaveTrack::Get`. -/
def Event.isGet : Event → Bool
  | Event.get _ _ _ _ => true
  | _ => false

/-- The event is a call of `WaveTrack::Set`. -/
def Event.isSet : Event → Bool
  | Event.set _ _ _ _ => true
  | _ => false

/-- The progress value that the turn of the block loop at cursor `s` reports:
the increment of `UpdateProgress` with the `mTrackBufferLen` that
`LoadBufferBlock` leaves. -/
def ProcessOne.turnValue (range : List WaveTrack) (s : Int) (blockLen : Nat)
    (st : EffectLoudness α) : ℚ :=
  st.mProgressVal +
    ((1 + (if st.mProcStereo then 1 else 0) : ℚ)
        * ((LoadBufferBlock range s blockLen st).2.mTrackBufferLen : ℚ)
      / ((st.mNumTracks : ℚ) * (st.mSteps : ℚ) * st.mTrackLen))

/-- The answer of the progress callback in the turn of the block loop at
cursor `s`. -/
def ProcessOne.turnCancelled (host : Host α) (range : List WaveTrack) (s : Int)
    (blockLen : Nat) (st : EffectLoudness α) : Bool :=
  host.TotalProgress (st.log ++ Event.load s blockLen :: getEvents s blockLen range 0)
    (ProcessOne.turnValue range s blockLen st)

/-- No progress report of the trace was answered by cancelling. -/
def NoCancel (evs : List Event) : Prop := ∀ e ∈ evs, e.isCancel = false

/-- Either no report of the trace was cancelled, or the result is false and
the trace ends with the load of a block, its `get` calls and the cancelled
report. -/
def CancelEnds (ret : Option Bool) (evs : List Event) : Prop :=
  NoCancel evs ∨
    (ret = some false ∧
      ∃ evs0 pos len gets v,
        evs = evs0 ++ (Event.load pos len :: gets ++ [Event.progress v true]) ∧
        NoCancel evs0 ∧ ∀ g ∈ gets, g.isGet = true)

/-- The blocks start at `s`, follow one another without gap up to `e`, and
each has a length between 1 and `min cap (best position)`. -/
def BlockChain (best : Int → Nat) (cap : Nat) : Int → Int → List (Int × Nat) → Prop
  | s, e, [] => s = e
  | s, e, b :: rest =>
    b.1 = s ∧ 1 ≤ b.2 ∧ b.2 ≤ cap ∧ b.2 ≤ best b.1 ∧ BlockChain best cap (s + (b.2 : Int)) e rest

/-- The selection `[mT0, mT1]` clipped to the track as at Loudness.cpp:189-190
is empty: `mCurT1 <= mCurT0`. -/
def clippedEmpty (st : EffectLoudness α) (track : WaveTrack) : Prop :=
  (if st.mT1 > track.GetEndTime then track.GetEndTime else st.mT1)
    ≤ (if st.mT0 < track.GetStartTime then track.GetStartTime else st.mT0)

/-- The use of the buffer stays inside a slot that exists and holds `cap`
elements. -/
def Access.InBounds (cap : Nat) (a : Access) : Prop :=
  a.slot < 2 ∧ a.size = some cap ∧ a.first + a.count ≤ cap

/-- What the loop of `Process` needs from the buffers for a channel group:
the group has one or two channels, slot 0 is allocated with the capacity,
slot 1 too when the group has two channels. -/
def BuffersFit (st : EffectLoudness α) (range : List WaveTrack) : Prop :=
  1 ≤ range.length ∧ range.length ≤ 2 ∧
  st.mTrackBufferSize 0 = some st.mTrackBufferCapacity ∧
  (range.length = 2 → st.mTrackBufferSize 1 = some st.mTrackBufferCapacity)

/-- Every read of the channel reports a count between 0 and the length
requested. -/
def ReadsBounded (ch : WaveTrack) : Prop :=
  ∀ (pos : Int) (len : Nat), 0 ≤ ch.numCopied pos len ∧ ch.numCopied pos len ≤ (len : Int)

/-- From `a` to `b` the traces only grew, every added buffer use is in
bounds for the capacity `cap` and every added load has a length of at most
`cap`. -/
def SafeStep (cap : Nat) (a b : EffectLoudness α) : Prop :=
  ∃ acc evs, b.accesses = a.accesses ++ acc ∧ b.log = a.log ++ evs ∧
    (∀ x ∈ acc, x.InBounds cap) ∧ ∀ p ∈ loads evs, p.2 ≤ cap

/-- The values never decrease, they lie between `lo` and `hi`, and the last
one is `hi` (when there is none, `lo = hi`). -/
def Rising (lo hi : ℚ) (vs : List ℚ) : Prop :=
  vs.Pairwise (· ≤ ·) ∧ (∀ v ∈ vs, lo ≤ v ∧ v ≤ hi) ∧ lo ≤ hi ∧ vs.getLast?.getD lo = hi

/-- The weight `1 + mProcStereo` of a channel group in the progress
increment, with `mProcStereo` as set at Loudness.cpp:206. -/
def stereoWeight (range : List WaveTrack) : Nat :=
  1 + (if range.length > 1 then 1 else 0)

/-- The left bound `mCurT0` computed at Loudness.cpp:189. -/
def curT0 (st : EffectLoudness α) (track : WaveTrack) : ℚ :=
  if st.mT0 < track.GetStartTime then track.GetStartTime else st.mT0

/-- The right bound `mCurT1` computed at Loudness.cpp:190. -/
def curT1 (st : EffectLoudness α) (track : WaveTrack) : ℚ :=
  if st.mT1 > track.GetEndTime then track.GetEndTime else st.mT1

/-- What a complete two-pass run needs from a visited track and its range:
the range starts with the track, every read is complete, the clipped
selection is not empty in time and in samples, the fuel covers the range and
the best block size is at least 1 everywhere. -/
def PassReady (st : EffectLoudness α) (fuel : Nat) (p : WaveTrack × List WaveTrack) : Prop :=
  (∃ others, p.2 = p.1 :: others) ∧
  (∀ ch ∈ p.2, ∀ pos len, ch.numCopied pos len = (len : Int)) ∧
  curT0 st p.1 < curT1 st p.1 ∧
  p.1.TimeToLongSamples (curT0 st p.1) < p.1.TimeToLongSamples (curT1 st p.1) ∧
  (p.1.TimeToLongSamples (curT1 st p.1) - p.1.TimeToLongSamples (curT0 st p.1)).toNat ≤ fuel ∧
  ∀ pos, 1 ≤ p.1.GetBestBlockSize pos

/-! ## Concrete inputs -/

/-- A channel at rate 1 that extends over the times `[t0, t1]`, read in
blocks of 4, every read complete; a time is converted to the sample position
just below it. -/
def demoTrack (id : Nat) (selected : Bool) (t0 t1 : ℚ) : WaveTrack :=
  { id := id, GetSelected := selected, GetStartTime := t0, GetEndTime := t1, GetRate := 1,
    GetMaxBlockSize := 4, GetBestBlockSize := fun _ => 4,
    TimeToLongSamples := fun t => ⌊t⌋, numCopied := fun _ len => (len : Int) }

/-- A channel like `demoTrack` whose reads report `n` samples copied. -/
def shortTrack (id : Nat) (n : Int) : WaveTrack :=
  { demoTrack id true 0 8 with numCopied := fun _ _ => n }

/-- A host that never cancels; the conversion is left as the identity. -/
def demoHost : Host ℚ :=
  { TotalProgress := fun _ _ => false, DB_TO_LINEAR := fun x => x }

/-- A host that cancels at the first report whose value exceeds `limit`. -/
def cancelHost (limit : ℚ) : Host ℚ :=
  { TotalProgress := fun _ v => decide (limit < v), DB_TO_LINEAR := fun x => x }

/-- An effect with the default parameters, the selection `[0, 10]`, `n`
selected wave tracks, every sample equal to 3 and nothing allocated. -/
def demoEffect (mStereoInd : Bool) (n : Nat) : EffectLoudness ℚ :=
  { mStereoInd := mStereoInd, mLUFSLevel := -23, mRMSLevel := -20, mNormalizeTo := kLoudness,
    mT0 := 0, mT1 := 10, mNumTracks := n, mCurT0 := 0, mCurT1 := 0, mCurRate := 0,
    mMult := 1, mRatio := 1, mProgressVal := 0, mSteps := 0, mTrackLen := 0, mCount := 0,
    mTrackBuffer := fun _ _ => 0, mTrackBufferSize := fun _ => none, mTrackBufferLen := 0,
    mTrackBufferCapacity := 0, mProcStereo := false, samples := fun _ _ => 3,
    log := [], accesses := [] }

/-! ## Lemmas on the operations -/

/-- The loop of `LoadBufferBlock` never takes its `return false`. -/
theorem LoadBufferBlock.load_loop_fst (pos : Int) (len : Nat) (range : List WaveTrack) :
    ∀ (idx : Nat) (rs : Int) (st : EffectLoudness α),
      (LoadBufferBlock.loop pos len range idx rs st).1 = true := by
  induction range with
  | nil => intro idx rs st; rfl
  | cons ch rest ih =>
    intro idx rs st
    simp only [LoadBufferBlock.loop, ne_eq, not_true_eq_false, false_and, if_false]
    exact ih _ _ _

/-- `LoadBufferBlock` returns true for every range, position and length. -/
theorem LoadBufferBlock_fst (range : List WaveTrack) (pos : Int) (len : Nat)
    (st : EffectLoudness α) : (LoadBufferBlock range pos len st).1 = true :=
  LoadBufferBlock.load_loop_fst pos len range _ _ _

theorem Kept.refl_kept (a : EffectLoudness α) : Kept a a := by constructor <;> rfl

theorem Kept.trans_kept {a b c : EffectLoudness α} (h1 : Kept a b) (h2 : Kept b c) : Kept a c := by
  constructor
  · exact h1.mStereoInd.trans h2.mStereoInd
  · exact h1.mLUFSLevel.trans h2.mLUFSLevel
  · exact h1.mRMSLevel.trans h2.mRMSLevel
  · exact h1.mNormalizeTo.trans h2.mNormalizeTo
  · exact h1.mT0.trans h2.mT0
  · exact h1.mT1.trans h2.mT1
  · exact h1.mNumTracks.trans h2.mNumTracks
  · exact h1.mRatio.trans h2.mRatio
  · exact h1.mTrackBufferSize.trans h2.mTrackBufferSize
  · exact h1.mTrackBufferCapacity.trans h2.mTrackBufferCapacity

theorem PassKept.refl_pass (a : EffectLoudness α) : PassKept a a := by
  refine ⟨Kept.refl_kept a, ?_, ?_, ?_, ?_, ?_, ?_, ?_⟩ <;> rfl

theorem PassKept.trans_pass {a b c : EffectLoudness α} (h1 : PassKept a b) (h2 : PassKept b c) :
    PassKept a c := by
  refine ⟨h1.toKept.trans_kept h2.toKept, ?_, ?_, ?_, ?_, ?_, ?_, ?_⟩
  · exact h1.mCurT0.trans h2.mCurT0
  · exact h1.mCurT1.trans h2.mCurT1
  · exact h1.mCurRate.trans h2.mCurRate
  · exact h1.mMult.trans h2.mMult
  · exact h1.mSteps.trans h2.mSteps
  · exact h1.mTrackLen.trans h2.mTrackLen
  · exact h1.mProcStereo.trans h2.mProcStereo

theorem WaveTrack.Get_passKept (ch : WaveTrack) (slot : Nat) (pos : Int) (len : Nat)
    (st : EffectLoudness α) : PassKept (ch.Get slot pos len st).2 st := by
  refine ⟨⟨?_, ?_, ?_, ?_, ?_, ?_, ?_, ?_, ?_, ?_⟩, ?_, ?_, ?_, ?_, ?_, ?_, ?_⟩ <;> rfl

theorem WaveTrack.Set_passKept (ch : WaveTrack) (slot : Nat) (pos : Int) (len : Nat)
    (st : EffectLoudness α) : PassKept (ch.Set slot pos len st) st := by
  refine ⟨⟨?_, ?_, ?_, ?_, ?_, ?_, ?_, ?_, ?_, ?_⟩, ?_, ?_, ?_, ?_, ?_, ?_, ?_⟩ <;> rfl

theorem UpdateProgress_passKept (host : Host α) (st : EffectLoudness α) :
    PassKept (UpdateProgress host st).2 st := by
  refine ⟨⟨?_, ?_, ?_, ?_, ?_, ?_, ?_, ?_, ?_, ?_⟩, ?_, ?_, ?_, ?_, ?_, ?_, ?_⟩ <;> rfl

theorem LoadBufferBlock.load_loop_passKept (pos : Int) (len : Nat) (range : List WaveTrack) :
    ∀ (idx : Nat) (rs : Int) (st : EffectLoudness α),
      PassKept (LoadBufferBlock.loop pos len range idx rs st).2 st := by
  induction range with
  | nil => intro idx rs st; exact PassKept.refl_pass st
  | cons ch rest ih =>
    intro idx rs st
    simp only [LoadBufferBlock.loop, ne_eq, not_true_eq_false, false_and, if_false]
    refine (ih _ _ _).trans_pass ?_
    refine ⟨⟨?_, ?_, ?_, ?_, ?_, ?_, ?_, ?_, ?_, ?_⟩, ?_, ?_, ?_, ?_, ?_, ?_, ?_⟩ <;> rfl

/-- The loop of `ProcessBufferBlock` in closed form. -/
theorem ProcessBufferBlock.fold_eq [Mul α] (st : EffectLoudness α) (n : Nat) :
    (List.range n).foldl ProcessBufferBlock.body st =
      { st with
        mTrackBuffer := fun k j =>
          if j < n ∧ (k = 0 ∨ (k = 1 ∧ st.mProcStereo = true)) then
            st.mTrackBuffer k j * st.mMult
          else st.mTrackBuffer k j
        accesses := st.accesses ++ scaleAccesses st.mProcStereo st.mTrackBufferSize n } := by
  induction n with
  | zero => simp [scaleAccesses]
  | succ n ih =>
    rw [List.range_succ, List.foldl_append, ih]
    simp only [List.foldl_cons, List.foldl_nil, ProcessBufferBlock.body]
    cases hs : st.mProcStereo
    · simp only [Bool.false_eq_true, if_false, and_false, or_false]
      congr 1
      · funext k j
        by_cases hk : k = 0 <;> by_cases hj : j = n <;>
          simp [hk, hj, Nat.lt_succ_iff, Nat.lt_iff_le_and_ne]
      · simp [scaleAccesses]
    · simp only [if_true, and_true]
      congr 1
      · funext k j
        by_cases hk : k = 0 <;> by_cases hk1 : k = 1 <;> by_cases hj : j = n <;>
          simp [hk, hk1, hj, Nat.lt_succ_iff, Nat.lt_iff_le_and_ne]
      · simp [scaleAccesses]

theorem LoadBufferBlock.load_loop_samples (pos : Int) (len : Nat) (range : List WaveTrack) :
    ∀ (idx : Nat) (rs : Int) (st : EffectLoudness α),
      (LoadBufferBlock.loop pos len range idx rs st).2.samples = st.samples ∧
      (LoadBufferBlock.loop pos len range idx rs st).2.mProgressVal = st.mProgressVal ∧
      (LoadBufferBlock.loop pos len range idx rs st).2.mCount = st.mCount := by
  induction range with
  | nil => intro idx rs st; exact ⟨rfl, rfl, rfl⟩
  | cons ch rest ih =>
    intro idx rs st
    simp only [LoadBufferBlock.loop, ne_eq, not_true_eq_false, false_and, if_false]
    obtain ⟨h1, h2, h3⟩ := ih (idx + 1) (ch.Get idx pos len st).1
      { (ch.Get idx pos len st).2 with
        mTrackBufferLen := as_size_t (ch.Get idx pos len st).1 }
    exact ⟨h1, h2, h3⟩

theorem LoadBufferBlock.load_loop_log (pos : Int) (len : Nat) (range : List WaveTrack) :
    ∀ (idx : Nat) (rs : Int) (st : EffectLoudness α),
      (LoadBufferBlock.loop pos len range idx rs st).2.log
        = st.log ++ getEvents pos len range idx := by
  induction range with
  | nil => intro idx rs st; simp [LoadBufferBlock.loop, getEvents]
  | cons ch rest ih =>
    intro idx rs st
    simp only [LoadBufferBlock.loop, ne_eq, not_true_eq_false, false_and, if_false]
    rw [ih]
    simp [WaveTrack.Get, getEvents]

theorem LoadBufferBlock.load_loop_accesses (pos : Int) (len : Nat) (range : List WaveTrack) :
    ∀ (idx : Nat) (rs : Int) (st : EffectLoudness α),
      (LoadBufferBlock.loop pos len range idx rs st).2.accesses
        = st.accesses ++ slotAccesses len st.mTrackBufferSize range.length idx := by
  induction range with
  | nil => intro idx rs st; simp [LoadBufferBlock.loop, slotAccesses]
  | cons ch rest ih =>
    intro idx rs st
    simp only [LoadBufferBlock.loop, ne_eq, not_true_eq_false, false_and, if_false]
    rw [ih]
    simp [WaveTrack.Get, slotAccesses]

/-- After the loop of `LoadBufferBlock`, `mTrackBufferLen` is one of the
counts reported by the channels (the last one). -/
theorem LoadBufferBlock.load_loop_len (P : Nat → Prop) (pos : Int) (len : Nat)
    (range : List WaveTrack) :
    ∀ (idx : Nat) (rs : Int) (st : EffectLoudness α),
      (∀ ch ∈ range, P (as_size_t (ch.numCopied pos len))) →
      (range = [] → P st.mTrackBufferLen) →
      P (LoadBufferBlock.loop pos len range idx rs st).2.mTrackBufferLen := by
  induction range with
  | nil => intro idx rs st _ h; exact h rfl
  | cons ch rest ih =>
    intro idx rs st hall _
    simp only [LoadBufferBlock.loop, ne_eq, not_true_eq_false, false_and, if_false]
    apply ih
    · intro c hc
      exact hall c (List.mem_cons_of_mem _ hc)
    · intro _
      exact hall ch (List.mem_cons_self _ _)

theorem StoreBufferBlock.store_loop_passKept (pos : Int) (len : Nat) (range : List WaveTrack) :
    ∀ (idx : Nat) (st : EffectLoudness α),
      PassKept (StoreBufferBlock.loop pos len range idx st) st := by
  induction range with
  | nil => intro idx st; exact PassKept.refl_pass st
  | cons ch rest ih =>
    intro idx st
    simp only [StoreBufferBlock.loop]
    exact (ih _ _).trans_pass (WaveTrack.Set_passKept ch idx pos len st)

theorem StoreBufferBlock.store_loop_kept_fields (pos : Int) (len : Nat) (range : List WaveTrack) :
    ∀ (idx : Nat) (st : EffectLoudness α),
      (StoreBufferBlock.loop pos len range idx st).mProgressVal = st.mProgressVal ∧
      (StoreBufferBlock.loop pos len range idx st).mTrackBufferLen = st.mTrackBufferLen ∧
      (StoreBufferBlock.loop pos len range idx st).mTrackBuffer = st.mTrackBuffer ∧
      (StoreBufferBlock.loop pos len range idx st).mCount = st.mCount := by
  induction range with
  | nil => intro idx st; exact ⟨rfl, rfl, rfl, rfl⟩
  | cons ch rest ih =>
    intro idx st
    simp only [StoreBufferBlock.loop]
    obtain ⟨h1, h2, h3, h4⟩ := ih (idx + 1) (ch.Set idx pos len st)
    exact ⟨h1, h2, h3, h4⟩

theorem StoreBufferBlock.store_loop_log (pos : Int) (len : Nat) (range : List WaveTrack) :
    ∀ (idx : Nat) (st : EffectLoudness α),
      (StoreBufferBlock.loop pos len range idx st).log
        = st.log ++ setEvents pos len range idx := by
  induction range with
  | nil => intro idx st; simp [StoreBufferBlock.loop, setEvents]
  | cons ch rest ih =>
    intro idx st
    simp only [StoreBufferBlock.loop]
    rw [ih]
    simp [WaveTrack.Set, setEvents]

theorem StoreBufferBlock.store_loop_accesses (pos : Int) (len : Nat) (range : List WaveTrack) :
    ∀ (idx : Nat) (st : EffectLoudness α),
      (StoreBufferBlock.loop pos len range idx st).accesses
        = st.accesses ++ slotAccesses len st.mTrackBufferSize range.length idx := by
  induction range with
  | nil => intro idx st; simp [StoreBufferBlock.loop, slotAccesses]
  | cons ch rest ih =>
    intro idx st
    simp only [StoreBufferBlock.loop]
    rw [ih]
    simp [WaveTrack.Set, slotAccesses]

theorem LoadBufferBlock_passKept (range : List WaveTrack) (pos : Int) (len : Nat)
    (st : EffectLoudness α) : PassKept (LoadBufferBlock range pos len st).2 st := by
  refine (LoadBufferBlock.load_loop_passKept pos len range _ _ _).trans_pass ?_
  refine ⟨⟨?_, ?_, ?_, ?_, ?_, ?_, ?_, ?_, ?_, ?_⟩, ?_, ?_, ?_, ?_, ?_, ?_, ?_⟩ <;> rfl

theorem LoadBufferBlock_log (range : List WaveTrack) (pos : Int) (len : Nat)
    (st : EffectLoudness α) :
    (LoadBufferBlock range pos len st).2.log
      = st.log ++ Event.load pos len :: getEvents pos len range 0 := by
  simp [LoadBufferBlock, LoadBufferBlock.load_loop_log]

theorem LoadBufferBlock_accesses (range : List WaveTrack) (pos : Int) (len : Nat)
    (st : EffectLoudness α) :
    (LoadBufferBlock range pos len st).2.accesses
      = st.accesses ++ slotAccesses len st.mTrackBufferSize range.length 0 := by
  simp [LoadBufferBlock, LoadBufferBlock.load_loop_accesses]

theorem LoadBufferBlock_samples (range : List WaveTrack) (pos : Int) (len : Nat)
    (st : EffectLoudness α) :
    (LoadBufferBlock range pos len st).2.samples = st.samples ∧
    (LoadBufferBlock range pos len st).2.mProgressVal = st.mProgressVal := by
  obtain ⟨h1, h2, _⟩ := LoadBufferBlock.load_loop_samples pos len range 0 (-1)
    { st with log := st.log ++ [Event.load pos len] }
  exact ⟨h1, h2⟩

theorem AnalyseBufferBlock_passKept (host : Host α) (st : EffectLoudness α) :
    PassKept (AnalyseBufferBlock host st).2 st := by
  have h : PassKept
      (UpdateProgress host { st with mCount := st.mCount + st.mTrackBufferLen }).2 st := by
    refine ⟨⟨?_, ?_, ?_, ?_, ?_, ?_, ?_, ?_, ?_, ?_⟩, ?_, ?_, ?_, ?_, ?_, ?_, ?_⟩ <;> rfl
  have e : (AnalyseBufferBlock host st).2
      = (UpdateProgress host { st with mCount := st.mCount + st.mTrackBufferLen }).2 := by
    simp only [AnalyseBufferBlock, apply_ite Prod.snd, ite_self]
  rw [e]
  exact h

theorem ProcessBufferBlock_passKept [Mul α] (host : Host α) (st : EffectLoudness α) :
    PassKept (ProcessBufferBlock host st).2 st := by
  simp only [ProcessBufferBlock, ProcessBufferBlock.fold_eq, apply_ite Prod.snd, ite_self]
  refine ⟨⟨?_, ?_, ?_, ?_, ?_, ?_, ?_, ?_, ?_, ?_⟩, ?_, ?_, ?_, ?_, ?_, ?_, ?_⟩ <;> rfl

theorem ProcessOne.turn_passKept [Mul α] (host : Host α) (range : List WaveTrack)
    (analyse : Bool) (s : Int) (blockLen : Nat) (st : EffectLoudness α) :
    PassKept (ProcessOne.turn host range analyse s blockLen st).2 st := by
  have hl := LoadBufferBlock_passKept range s blockLen st
  unfold ProcessOne.turn
  simp only [LoadBufferBlock_fst, Bool.not_true, Bool.false_eq_true, if_false]
  cases analyse
  · simp only [Bool.false_eq_true, if_false, Bool.not_false, if_true]
    split
    · exact (ProcessBufferBlock_passKept host _).trans_pass hl
    · exact ((StoreBufferBlock.store_loop_passKept s blockLen range 0 _).trans_pass
        (ProcessBufferBlock_passKept host _)).trans_pass hl
  · simp only [if_true, Bool.not_true, Bool.false_eq_true, if_false]
    split
    · exact (AnalyseBufferBlock_passKept host _).trans_pass hl
    · exact (AnalyseBufferBlock_passKept host _).trans_pass hl

/-- The turn of the block loop: its flag, the progress value it leaves and
the calls it makes. -/
theorem ProcessOne.turn_spec [Mul α] (host : Host α) (range : List WaveTrack) (analyse : Bool)
    (s : Int) (blockLen : Nat) (st : EffectLoudness α) :
    (ProcessOne.turn host range analyse s blockLen st).1
        = !ProcessOne.turnCancelled host range s blockLen st ∧
    (ProcessOne.turn host range analyse s blockLen st).2.mProgressVal
        = ProcessOne.turnValue range s blockLen st ∧
    (ProcessOne.turn host range analyse s blockLen st).2.log
        = st.log ++ (Event.load s blockLen :: getEvents s blockLen range 0 ++
            Event.progress (ProcessOne.turnValue range s blockLen st)
              (ProcessOne.turnCancelled host range s blockLen st) ::
            (if ProcessOne.turnCancelled host range s blockLen st || analyse then []
             else setEvents s blockLen range 0)) := by
  have hk := LoadBufferBlock_passKept range s blockLen st
  have hlog := LoadBufferBlock_log range s blockLen st
  have hs := (LoadBufferBlock_samples range s blockLen st).2
  cases analyse <;>
    cases hc : ProcessOne.turnCancelled host range s blockLen st <;>
      simp only [ProcessOne.turnCancelled, ProcessOne.turnValue] at hc <;>
      simp [ProcessOne.turn, LoadBufferBlock_fst, ProcessBufferBlock, AnalyseBufferBlock,
        ProcessBufferBlock.fold_eq, UpdateProgress, ProcessOne.turnValue, hlog, hs,
        hk.mProcStereo, hk.mNumTracks, hk.mSteps, hk.mTrackLen, hc, StoreBufferBlock,
        StoreBufferBlock.store_loop_log, StoreBufferBlock.store_loop_kept_fields]

theorem getEvents_isGet (pos : Int) (len : Nat) (range : List WaveTrack) :
    ∀ idx, ∀ g ∈ getEvents pos len range idx, g.isGet = true := by
  induction range with
  | nil => intro idx g hg; simp [getEvents] at hg
  | cons ch rest ih =>
    intro idx g hg
    simp only [getEvents, List.mem_cons] at hg
    rcases hg with rfl | hg
    · rfl
    · exact ih _ g hg

theorem setEvents_isSet (pos : Int) (len : Nat) (range : List WaveTrack) :
    ∀ idx, ∀ g ∈ setEvents pos len range idx, g.isSet = true := by
  induction range with
  | nil => intro idx g hg; simp [setEvents] at hg
  | cons ch rest ih =>
    intro idx g hg
    simp only [setEvents, List.mem_cons] at hg
    rcases hg with rfl | hg
    · rfl
    · exact ih _ g hg

theorem Event.isGet_not_isCancel {e : Event} (h : e.isGet = true) : e.isCancel = false := by
  cases e <;> simp_all [Event.isGet, Event.isCancel]

theorem Event.isSet_not_isCancel {e : Event} (h : e.isSet = true) : e.isCancel = false := by
  cases e <;> simp_all [Event.isSet, Event.isCancel]

theorem NoCancel.append_noCancel {a b : List Event} (ha : NoCancel a) (hb : NoCancel b) :
    NoCancel (a ++ b) := by
  intro e he
  rcases List.mem_append.1 he with h | h
  · exact ha e h
  · exact hb e h

theorem NoCancel.nil : NoCancel [] := by
  intro e he; simp at he

theorem CancelEnds.append_left {ret : Option Bool} {a b : List Event} (ha : NoCancel a)
    (hb : CancelEnds ret b) : CancelEnds ret (a ++ b) := by
  rcases hb with hb | ⟨hr, evs0, pos, len, gets, v, hb, h0, hg⟩
  · exact Or.inl (ha.append_noCancel hb)
  · refine Or.inr ⟨hr, a ++ evs0, pos, len, gets, v, ?_, ha.append_noCancel h0, hg⟩
    rw [hb, List.append_assoc]

/-- The calls of a turn that was not cancelled contain no cancelled report. -/
theorem noCancel_turn (range : List WaveTrack) (s : Int) (blockLen : Nat) (v : ℚ)
    (tail : List Event) (ht : ∀ g ∈ tail, g.isSet = true) :
    NoCancel (Event.load s blockLen :: getEvents s blockLen range 0 ++
      Event.progress v false :: tail) := by
  intro e he
  simp only [List.cons_append, List.mem_cons, List.mem_append] at he
  rcases he with rfl | he | rfl | he
  · rfl
  · exact Event.isGet_not_isCancel (getEvents_isGet _ _ _ _ e he)
  · rfl
  · exact Event.isSet_not_isCancel (ht e he)

/-- What a trace that satisfies `CancelEnds` looks like around a cancelled
report. -/
theorem CancelEnds.split {ret : Option Bool} {evs pre post : List Event} {v : ℚ}
    (h : CancelEnds ret evs) (he : evs = pre ++ Event.progress v true :: post) :
    ret = some false ∧ post = [] ∧
      ∃ pre0 pos len gets, pre = pre0 ++ Event.load pos len :: gets ∧
        ∀ g ∈ gets, g.isGet = true := by
  rcases h with h | ⟨hr, evs0, pos, len, gets, w, hb, h0, hg⟩
  · have : (Event.progress v true).isCancel = false := h _ (by rw [he]; simp)
    simp [Event.isCancel] at this
  · have hall : NoCancel (evs0 ++ Event.load pos len :: gets) := by
      refine h0.append_noCancel ?_
      intro e hm
      rcases List.mem_cons.1 hm with rfl | hm
      · rfl
      · exact Event.isGet_not_isCancel (hg e hm)
    have hb2 : (evs0 ++ Event.load pos len :: gets) ++ [Event.progress w true]
        = pre ++ Event.progress v true :: post := by
      rw [← he, hb]; simp
    rcases List.append_eq_append_iff.1 hb2 with ⟨a', h1, h2⟩ | ⟨c', h1, h2⟩
    · cases a' with
      | nil =>
        simp only [List.nil_append, List.cons.injEq, Event.progress.injEq] at h2
        refine ⟨hr, h2.2.symm, evs0, pos, len, gets, ?_, hg⟩
        simpa using h1
      | cons x xs =>
        simp only [List.cons_append, List.cons.injEq] at h2
        have := h2.2
        simp at this
    · cases c' with
      | nil =>
        simp only [List.nil_append, List.cons.injEq, Event.progress.injEq] at h2
        refine ⟨hr, h2.2, evs0, pos, len, gets, ?_, hg⟩
        simpa using h1.symm
      | cons x xs =>
        simp only [List.cons_append, List.cons.injEq] at h2
        have hx : x.isCancel = false := hall x (by rw [h1]; simp)
        rw [← h2.1] at hx
        simp [Event.isCancel] at hx

/-- The block loop of `ProcessOne` appends a trace that satisfies `CancelEnds`. -/
theorem ProcessOne.block_loop_cancelEnds [Mul α] (host : Host α) (range : List WaveTrack)
    (track : WaveTrack) (analyse : Bool) (sEnd : Int) :
    ∀ (fuel : Nat) (s : Int) (st : EffectLoudness α),
      ∃ evs, (ProcessOne.loop host range track analyse sEnd fuel s st).2.log = st.log ++ evs ∧
        CancelEnds (ProcessOne.loop host range track analyse sEnd fuel s st).1 evs := by
  intro fuel
  induction fuel with
  | zero =>
    intro s st
    refine ⟨[], ?_, Or.inl NoCancel.nil⟩
    simp only [ProcessOne.loop]
    split <;> simp
  | succ fuel ih =>
    intro s st
    simp only [ProcessOne.loop]
    by_cases hs : s < sEnd
    · simp only [hs, if_true]
      obtain ⟨h1, -, h3⟩ := ProcessOne.turn_spec host range analyse s
        (ProcessOne.blockLen track sEnd s st) st
      cases hc : ProcessOne.turnCancelled host range s (ProcessOne.blockLen track sEnd s st) st
      · rw [hc] at h1 h3
        simp only [h1, Bool.not_false, Bool.not_true, Bool.false_eq_true, if_false]
        obtain ⟨evs, he, hce⟩ := ih (s + (ProcessOne.blockLen track sEnd s st : Int))
          (ProcessOne.turn host range analyse s (ProcessOne.blockLen track sEnd s st) st).2
        have ht : ∃ tevs, (ProcessOne.turn host range analyse s
            (ProcessOne.blockLen track sEnd s st) st).2.log = st.log ++ tevs ∧ NoCancel tevs := by
          refine ⟨_, h3, ?_⟩
          apply noCancel_turn
          intro g hg
          split at hg
          · simp at hg
          · exact setEvents_isSet _ _ _ _ g hg
        obtain ⟨tevs, ht1, ht2⟩ := ht
        exact ⟨tevs ++ evs, by rw [he, ht1, List.append_assoc], CancelEnds.append_left ht2 hce⟩
      · rw [hc] at h1 h3
        simp only [h1, Bool.not_true, Bool.not_false, if_true]
        simp only [Bool.true_or, if_true] at h3
        exact ⟨_, h3, Or.inr ⟨rfl, [], s, ProcessOne.blockLen track sEnd s st,
          getEvents s (ProcessOne.blockLen track sEnd s st) range 0,
          ProcessOne.turnValue range s (ProcessOne.blockLen track sEnd s st) st,
          by simp, NoCancel.nil, getEvents_isGet _ _ _ _⟩⟩
    · simp only [hs, if_false]
      exact ⟨[], by simp, Or.inl NoCancel.nil⟩

/-! ## The claims and their lemmas -/

theorem CancelEnds.noCancel_of_ne_false {ret : Option Bool} {evs : List Event}
    (h : CancelEnds ret evs) (hr : ret ≠ some false) : NoCancel evs := by
  rcases h with h | ⟨h, _⟩
  · exact h
  · exact absurd h hr

/-- `ProcessOne` appends a trace that satisfies `CancelEnds`. -/
theorem ProcessOne_cancelEnds [Mul α] (host : Host α) (fuel : Nat) (range : List WaveTrack)
    (analyse : Bool) (st : EffectLoudness α) :
    ∃ evs, (ProcessOne host fuel range analyse st).2.log = st.log ++ evs ∧
      CancelEnds (ProcessOne host fuel range analyse st).1 evs := by
  cases range with
  | nil => exact ⟨[], by simp [ProcessOne], Or.inl NoCancel.nil⟩
  | cons track rest =>
    simp only [ProcessOne]
    split
    · exact ⟨[], by simp, Or.inl NoCancel.nil⟩
    · exact ProcessOne.block_loop_cancelEnds host (track :: rest) track analyse _ fuel _ _

/-- The track loop of `Process` appends a trace that satisfies `CancelEnds`. -/
theorem Process.track_loop_cancelEnds [Mul α] [Div α] [One α] (host : Host α) (fuel : Nat)
    (todo : List (WaveTrack × List WaveTrack)) :
    ∀ st : EffectLoudness α,
      ∃ evs, (Process.loop host fuel todo st).2.log = st.log ++ evs ∧
        CancelEnds (Process.loop host fuel todo st).1 evs := by
  induction todo with
  | nil => intro st; exact ⟨[], by simp [Process.loop], Or.inl NoCancel.nil⟩
  | cons p rest ih =>
    intro st
    obtain ⟨track, range⟩ := p
    obtain ⟨evs1, hl1, hc1⟩ := ProcessOne_cancelEnds host fuel range true
      (Process.prepare track range st)
    have hp : (Process.prepare track range st).log = st.log := rfl
    rw [hp] at hl1
    simp only [Process.loop]
    rcases hr1 : ProcessOne host fuel range true (Process.prepare track range st) with ⟨r1, st2⟩
    rw [hr1] at hl1 hc1
    rcases r1 with _ | _ | _
    · exact ⟨evs1, hl1, hc1⟩
    · exact ⟨evs1, hl1, hc1⟩
    · have hn1 := hc1.noCancel_of_ne_false (by simp)
      obtain ⟨evs2, hl2, hc2⟩ := ProcessOne_cancelEnds host fuel range false
        (Process.setMult st2)
      have hm : (Process.setMult st2).log = st2.log := rfl
      rw [hm] at hl2
      simp only at hl1 hl2 ⊢
      rcases hr2 : ProcessOne host fuel range false (Process.setMult st2) with ⟨r2, st4⟩
      rw [hr2] at hl2 hc2
      simp only at hl2 hc2
      rcases r2 with _ | _ | _
      · exact ⟨evs1 ++ evs2, by simp only [hl2, hl1, List.append_assoc], hc2.append_left hn1⟩
      · exact ⟨evs1 ++ evs2, by simp only [hl2, hl1, List.append_assoc], hc2.append_left hn1⟩
      · have hn2 := hc2.noCancel_of_ne_false (by simp)
        obtain ⟨evs3, hl3, hc3⟩ := ih st4
        refine ⟨evs1 ++ (evs2 ++ evs3), ?_, (hc3.append_left hn2).append_left hn1⟩
        simp only [hl3, hl2, hl1, List.append_assoc]

theorem AllocBuffers_log (tracks : TrackList) (st : EffectLoudness α) :
    (AllocBuffers tracks st).log = st.log ∧ (AllocBuffers tracks st).accesses = st.accesses ∧
    (AllocBuffers tracks st).samples = st.samples := by
  unfold AllocBuffers
  simp only
  split <;> exact ⟨rfl, rfl, rfl⟩

theorem Process.start_log (host : Host α) (tracks : TrackList) (st : EffectLoudness α) :
    (Process.start host tracks st).log = st.log ∧
    (Process.start host tracks st).accesses = st.accesses ∧
    (Process.start host tracks st).samples = st.samples := by
  have h0 : (Process.setRatio host st).log = st.log ∧
      (Process.setRatio host st).accesses = st.accesses ∧
      (Process.setRatio host st).samples = st.samples := by
    unfold Process.setRatio; split <;> exact ⟨rfl, rfl, rfl⟩
  obtain ⟨h1, h2, h3⟩ := AllocBuffers_log tracks (Process.setRatio host st)
  exact ⟨h1.trans h0.1, h2.trans h0.2.1, h3.trans h0.2.2⟩

/-- `Process` appends a trace that satisfies `CancelEnds`. -/
theorem Process_cancelEnds [Mul α] [Div α] [One α] (host : Host α) (fuel : Nat)
    (tracks : TrackList) (st : EffectLoudness α) :
    ∃ evs, (Process host fuel tracks st).2.log = st.log ++ evs ∧
      CancelEnds (Process host fuel tracks st).1 evs := by
  obtain ⟨evs, hl, hc⟩ := Process.track_loop_cancelEnds host fuel
    (processRanges tracks (Process.start host tracks st).mStereoInd)
    (Process.start host tracks st)
  rw [(Process.start_log host tracks st).1] at hl
  simp only [Process]
  rcases hr : Process.loop host fuel
    (processRanges tracks (Process.start host tracks st).mStereoInd)
    (Process.start host tracks st) with ⟨r, st4⟩
  rw [hr] at hl hc
  rcases r with _ | b
  · exact ⟨evs, hl, hc⟩
  · exact ⟨evs, hl, hc⟩

/-- C8: when a progress report is answered by cancelling, `ProcessOne`
returns false and that report is its last call: no block is loaded after it,
and between the load of the current block and the report there are only
`get` calls, so neither the current block nor a later one is stored. `Process`
then makes no further call (it processes no further track) and returns false. -/
theorem cancel_aborts_pass_and_operation [Mul α] [Div α] [One α] (host : Host α) (fuel : Nat) :
    (∀ (range : List WaveTrack) (analyse : Bool) (st : EffectLoudness α)
        (pre post : List Event) (v : ℚ),
        (ProcessOne host fuel range analyse st).2.log
            = st.log ++ (pre ++ Event.progress v true :: post) →
        (ProcessOne host fuel range analyse st).1 = some false ∧ post = [] ∧
          ∃ pre0 pos len gets, pre = pre0 ++ Event.load pos len :: gets ∧
            ∀ g ∈ gets, g.isGet = true) ∧
    (∀ (tracks : TrackList) (st : EffectLoudness α) (pre post : List Event) (v : ℚ),
        (Process host fuel tracks st).2.log
            = st.log ++ (pre ++ Event.progress v true :: post) →
        (Process host fuel tracks st).1 = some false ∧ post = [] ∧
          ∃ pre0 pos len gets, pre = pre0 ++ Event.load pos len :: gets ∧
            ∀ g ∈ gets, g.isGet = true) := by
  constructor
  · intro range analyse st pre post v h
    obtain ⟨evs, hl, hc⟩ := ProcessOne_cancelEnds host fuel range analyse st
    rw [hl] at h
    exact hc.split (List.append_cancel_left h)
  · intro tracks st pre post v h
    obtain ⟨evs, hl, hc⟩ := Process_cancelEnds host fuel tracks st
    rw [hl] at h
    exact hc.split (List.append_cancel_left h)

/-- A run for C8: one selected channel, the callback cancels at the first
report above 1/2, which is the report of the first block of the apply pass. -/
theorem cancel_aborts_pass_and_operation_witness :
    (Process (cancelHost (1 / 2)) 9 [[demoTrack 0 true 0 8]] (demoEffect false 1)).2.log
        = (demoEffect false 1).log ++
          ([Event.load 0 4, Event.get 0 0 0 4, Event.progress (1 / 4) false,
            Event.load 4 4, Event.get 0 0 4 4, Event.progress (1 / 2) false,
            Event.load 0 4, Event.get 0 0 0 4] ++ Event.progress (3 / 4) true :: []) ∧
    (Process (cancelHost (1 / 2)) 9 [[demoTrack 0 true 0 8]] (demoEffect false 1)).1
        = some false :=
  ⟨by decide!,
    ((cancel_aborts_pass_and_operation (cancelHost (1 / 2)) 9).2 [[demoTrack 0 true 0 8]]
      (demoEffect false 1)
      [Event.load 0 4, Event.get 0 0 0 4, Event.progress (1 / 4) false,
        Event.load 4 4, Event.get 0 0 4 4, Event.progress (1 / 2) false,
        Event.load 0 4, Event.get 0 0 0 4] [] (3 / 4) (by decide!)).1⟩

theorem loads_append (a b : List Event) : loads (a ++ b) = loads a ++ loads b := by
  induction a with
  | nil => rfl
  | cons e rest ih => cases e <;> simp [loads, ih]

theorem loads_getEvents (pos : Int) (len : Nat) (range : List WaveTrack) :
    ∀ idx, loads (getEvents pos len range idx) = [] := by
  induction range with
  | nil => intro idx; rfl
  | cons ch rest ih => intro idx; simp [getEvents, loads, ih]

theorem loads_setEvents (pos : Int) (len : Nat) (range : List WaveTrack) :
    ∀ idx, loads (setEvents pos len range idx) = [] := by
  induction range with
  | nil => intro idx; rfl
  | cons ch rest ih => intro idx; simp [setEvents, loads, ih]

/-- The blocks loaded by one turn of the block loop. -/
theorem loads_turn (range : List WaveTrack) (s : Int) (blockLen : Nat) (v : ℚ) (c b : Bool) :
    loads (Event.load s blockLen :: getEvents s blockLen range 0 ++
      Event.progress v c :: (if b then [] else setEvents s blockLen range 0))
      = [(s, blockLen)] := by
  cases b <;> simp [loads, loads_append, loads_getEvents, loads_setEvents]

theorem as_size_t_of_nonneg {v : Int} (h : 0 ≤ v) : as_size_t v = v.toNat := by
  simp [as_size_t, h]

/-- The block length taken at a cursor before the end is at least 1 and at
most the capacity, the natural block size and the rest of the range. -/
theorem blockLen_bounds (track : WaveTrack) (sEnd s : Int) (st : EffectLoudness α)
    (hs : s < sEnd) (hcap : 1 ≤ st.mTrackBufferCapacity)
    (hbest : ∀ p, 1 ≤ track.GetBestBlockSize p) :
    1 ≤ ProcessOne.blockLen track sEnd s st ∧
    ProcessOne.blockLen track sEnd s st ≤ st.mTrackBufferCapacity ∧
    ProcessOne.blockLen track sEnd s st ≤ track.GetBestBlockSize s ∧
    s + (ProcessOne.blockLen track sEnd s st : Int) ≤ sEnd := by
  have hb := hbest s
  have hr : as_size_t (sEnd - s) = (sEnd - s).toNat := as_size_t_of_nonneg (by omega)
  simp only [ProcessOne.blockLen, limitSampleBufferSize, hr]
  split <;> omega

theorem blockLen_le_capacity (track : WaveTrack) (sEnd s : Int) (st : EffectLoudness α) :
    ProcessOne.blockLen track sEnd s st ≤ st.mTrackBufferCapacity := by
  simp only [ProcessOne.blockLen, limitSampleBufferSize]
  split <;> omega

/-- The block loop keeps the members that it does not assign. -/
theorem block_loop_passKept [Mul α] (host : Host α) (range : List WaveTrack)
    (track : WaveTrack) (analyse : Bool) (sEnd : Int) :
    ∀ (fuel : Nat) (s : Int) (st : EffectLoudness α),
      PassKept (ProcessOne.loop host range track analyse sEnd fuel s st).2 st := by
  intro fuel
  induction fuel with
  | zero =>
    intro s st
    simp only [ProcessOne.loop]
    split <;> exact PassKept.refl_pass st
  | succ fuel ih =>
    intro s st
    simp only [ProcessOne.loop]
    split
    · split
      · exact ProcessOne.turn_passKept host range analyse s _ st
      · exact (ih _ _).trans_pass (ProcessOne.turn_passKept host range analyse s _ st)
    · exact PassKept.refl_pass st

/-- With a callback that never cancels, positive block sizes and enough fuel,
the block loop ends with true and the blocks it loads form a chain from the
cursor to the end of the range. -/
theorem block_loop_blocks [Mul α] (host : Host α) (range : List WaveTrack)
    (track : WaveTrack) (analyse : Bool) (sEnd : Int)
    (hcancel : ∀ h v, host.TotalProgress h v = false)
    (hbest : ∀ p, 1 ≤ track.GetBestBlockSize p) :
    ∀ (fuel : Nat) (s : Int) (st : EffectLoudness α),
      s ≤ sEnd → (sEnd - s).toNat ≤ fuel → 1 ≤ st.mTrackBufferCapacity →
      (ProcessOne.loop host range track analyse sEnd fuel s st).1 = some true ∧
      ∃ evs, (ProcessOne.loop host range track analyse sEnd fuel s st).2.log = st.log ++ evs ∧
        BlockChain track.GetBestBlockSize st.mTrackBufferCapacity s sEnd (loads evs) := by
  intro fuel
  induction fuel with
  | zero =>
    intro s st hs hf _
    have : s = sEnd := by omega
    subst this
    simp [ProcessOne.loop, loads, BlockChain]
  | succ fuel ih =>
    intro s st hs hf hcap
    by_cases hlt : s < sEnd
    · obtain ⟨hb1, hb2, hb3, hb4⟩ := blockLen_bounds track sEnd s st hlt hcap hbest
      obtain ⟨h1, -, h3⟩ := ProcessOne.turn_spec host range analyse s
        (ProcessOne.blockLen track sEnd s st) st
      have hc : ProcessOne.turnCancelled host range s (ProcessOne.blockLen track sEnd s st) st
          = false := hcancel _ _
      rw [hc] at h1 h3
      have hk := ProcessOne.turn_passKept host range analyse s
        (ProcessOne.blockLen track sEnd s st) st
      obtain ⟨ih1, evs, ih2, ih3⟩ := ih (s + (ProcessOne.blockLen track sEnd s st : Int))
        (ProcessOne.turn host range analyse s (ProcessOne.blockLen track sEnd s st) st).2
        hb4 (by omega) (by rw [hk.mTrackBufferCapacity]; exact hcap)
      simp only [ProcessOne.loop, hlt, if_true, h1, Bool.not_false, Bool.not_true,
        Bool.false_eq_true, if_false]
      have ht : ∃ tevs, (ProcessOne.turn host range analyse s
          (ProcessOne.blockLen track sEnd s st) st).2.log = st.log ++ tevs ∧
          loads tevs = [(s, ProcessOne.blockLen track sEnd s st)] :=
        ⟨_, h3, loads_turn _ _ _ _ _ _⟩
      obtain ⟨tevs, ht1, ht2⟩ := ht
      refine ⟨ih1, tevs ++ evs, by rw [ih2, ht1, List.append_assoc], ?_⟩
      rw [loads_append, ht2]
      rw [hk.mTrackBufferCapacity] at ih3
      exact ⟨rfl, hb1, hb2, hb3, ih3⟩
    · have : s = sEnd := by omega
      subst this
      simp [ProcessOne.loop, loads, BlockChain]

theorem BlockChain_head {best : Int → Nat} {cap : Nat} {s e : Int} {l : List (Int × Nat)}
    (h : BlockChain best cap s e l) (hne : s ≠ e) : l.head?.map Prod.fst = some s := by
  cases l with
  | nil => exact absurd h hne
  | cons b rest => simp [h.1]

theorem BlockChain_chain {best : Int → Nat} {cap : Nat} :
    ∀ {l : List (Int × Nat)} {s e : Int}, BlockChain best cap s e l →
      List.Chain' (fun a b : Int × Nat => b.1 = a.1 + (a.2 : Int)) l := by
  intro l
  induction l with
  | nil => intro s e _; exact List.chain'_nil
  | cons b rest ih =>
    intro s e h
    obtain ⟨h1, -, -, -, h5⟩ := h
    cases rest with
    | nil => exact List.chain'_singleton b
    | cons c rest2 =>
      refine List.chain'_cons.2 ⟨?_, ih h5⟩
      rw [h5.1, h1]

theorem BlockChain_bounds {best : Int → Nat} {cap : Nat} :
    ∀ {l : List (Int × Nat)} {s e : Int}, BlockChain best cap s e l →
      ∀ b ∈ l, 1 ≤ b.2 ∧ b.2 ≤ cap ∧ b.2 ≤ best b.1 := by
  intro l
  induction l with
  | nil => intro s e _ b hb; simp at hb
  | cons c rest ih =>
    intro s e h b hb
    obtain ⟨-, h2, h3, h4, h5⟩ := h
    rcases List.mem_cons.1 hb with rfl | hb
    · exact ⟨h2, h3, h4⟩
    · exact ih h5 b hb

theorem BlockChain_sum {best : Int → Nat} {cap : Nat} :
    ∀ {l : List (Int × Nat)} {s e : Int}, BlockChain best cap s e l →
      (l.map fun b => (b.2 : Int)).sum = e - s := by
  intro l
  induction l with
  | nil => intro s e h; simp [BlockChain] at h; simp [h]
  | cons c rest ih =>
    intro s e h
    obtain ⟨-, -, -, -, h5⟩ := h
    simp only [List.map_cons, List.sum_cons, ih h5]
    omega

/-- C1: for a range `[start, end)` with `end > start`, a capacity of at least
1, a best block size of at least 1 at every position and a callback that
never cancels, `ProcessOne` (either pass, any channel group, enough fuel)
returns true and the blocks `(position, length)` it loads are such that the
first position is `start`, each next position is the previous position plus
the previous length, every length is at least 1, at most the capacity and at
most the best block size at its position, and the lengths sum to `end - start`. -/
theorem ProcessOne_blocks_cover_range [Mul α] (host : Host α) (fuel : Nat)
    (track : WaveTrack) (others : List WaveTrack) (analyse : Bool) (st : EffectLoudness α)
    (hT : st.mCurT0 < st.mCurT1)
    (hrange : track.TimeToLongSamples st.mCurT0 < track.TimeToLongSamples st.mCurT1)
    (hcap : 1 ≤ st.mTrackBufferCapacity)
    (hbest : ∀ p, 1 ≤ track.GetBestBlockSize p)
    (hcancel : ∀ h v, host.TotalProgress h v = false)
    (hfuel : (track.TimeToLongSamples st.mCurT1 - track.TimeToLongSamples st.mCurT0).toNat
      ≤ fuel) :
    (ProcessOne host fuel (track :: others) analyse st).1 = some true ∧
    ∃ evs, (ProcessOne host fuel (track :: others) analyse st).2.log = st.log ++ evs ∧
      (loads evs).head?.map Prod.fst = some (track.TimeToLongSamples st.mCurT0) ∧
      List.Chain' (fun a b : Int × Nat => b.1 = a.1 + (a.2 : Int)) (loads evs) ∧
      (∀ b ∈ loads evs, 1 ≤ b.2 ∧ b.2 ≤ st.mTrackBufferCapacity ∧
        b.2 ≤ track.GetBestBlockSize b.1) ∧
      ((loads evs).map fun b => (b.2 : Int)).sum
        = track.TimeToLongSamples st.mCurT1 - track.TimeToLongSamples st.mCurT0 := by
  have hg : ¬ st.mCurT1 ≤ st.mCurT0 := not_le.2 hT
  obtain ⟨h1, evs, h2, h3⟩ := block_loop_blocks host (track :: others) track analyse
    (track.TimeToLongSamples st.mCurT1) hcancel hbest fuel (track.TimeToLongSamples st.mCurT0)
    { st with mTrackLen :=
        ((track.TimeToLongSamples st.mCurT1 - track.TimeToLongSamples st.mCurT0 : Int) : ℚ) }
    (le_of_lt hrange) hfuel hcap
  simp only [ProcessOne, hg, if_false]
  exact ⟨h1, evs, h2, BlockChain_head h3 (ne_of_lt hrange), BlockChain_chain h3,
    BlockChain_bounds h3, BlockChain_sum h3⟩

/-- A run for C1: two blocks of 4 samples cover the range `[0, 8)`. -/
theorem ProcessOne_blocks_cover_range_witness :
    (ProcessOne demoHost 8 [demoTrack 0 true 0 8] true
        { demoEffect false 1 with mCurT1 := 8, mTrackBufferCapacity := 4 }).1 = some true ∧
    ∃ evs, (ProcessOne demoHost 8 [demoTrack 0 true 0 8] true
        { demoEffect false 1 with mCurT1 := 8, mTrackBufferCapacity := 4 }).2.log
          = [] ++ evs ∧
      (loads evs).head?.map Prod.fst = some 0 ∧
      List.Chain' (fun a b : Int × Nat => b.1 = a.1 + (a.2 : Int)) (loads evs) ∧
      (∀ b ∈ loads evs, 1 ≤ b.2 ∧ b.2 ≤ 4 ∧ b.2 ≤ 4) ∧
      ((loads evs).map fun b => (b.2 : Int)).sum = 8 - 0 :=
  ProcessOne_blocks_cover_range demoHost 8 (demoTrack 0 true 0 8) [] true
    { demoEffect false 1 with mCurT1 := 8, mTrackBufferCapacity := 4 }
    (by decide!) (by decide!) (by decide) (fun _ => (by decide : 1 ≤ 4)) (fun _ _ => rfl)
    (by decide!)

theorem ProcessOne_kept [Mul α] (host : Host α) (fuel : Nat) (range : List WaveTrack)
    (analyse : Bool) (st : EffectLoudness α) :
    Kept (ProcessOne host fuel range analyse st).2 st := by
  cases range with
  | nil => exact Kept.refl_kept st
  | cons track rest =>
    have h0 : ∀ x : ℚ, Kept { st with mTrackLen := x } st := by
      intro x; constructor <;> rfl
    simp only [ProcessOne]
    split
    · exact h0 _
    · exact (block_loop_passKept host (track :: rest) track analyse _ fuel _ _).toKept.trans_kept
        (h0 _)

theorem Process_prepare_kept (track : WaveTrack) (range : List WaveTrack)
    (st : EffectLoudness α) : Kept (Process.prepare track range st) st := by
  constructor <;> rfl

/-- One turn of the track loop of `Process`, in the cases of the two passes. -/
theorem Process_loop_cons [Mul α] [Div α] [One α] (host : Host α) (fuel : Nat)
    (track : WaveTrack) (range : List WaveTrack) (rest : List (WaveTrack × List WaveTrack))
    (st : EffectLoudness α) :
    Process.loop host fuel ((track, range) :: rest) st =
      if (Process.analysed host fuel track range st).1 = some true then
        if (Process.applied host fuel track range st).1 = some true then
          Process.loop host fuel rest (Process.applied host fuel track range st).2
        else Process.applied host fuel track range st
      else Process.analysed host fuel track range st := by
  simp only [Process.loop, Process.applied, Process.analysed]
  rcases hr1 : ProcessOne host fuel range true (Process.prepare track range st) with ⟨r1, st2⟩
  rcases r1 with _ | _ | _
  · simp
  · simp
  · simp only [if_true]
    rcases hr2 : ProcessOne host fuel range false (Process.setMult st2) with ⟨r2, st4⟩
    rcases r2 with _ | _ | _ <;> simp

theorem Process_setMult_kept [Div α] [One α] (st : EffectLoudness α) :
    Kept (Process.setMult st) st := by
  constructor <;> rfl

theorem Process_analysed_kept [Mul α] (host : Host α) (fuel : Nat) (track : WaveTrack)
    (range : List WaveTrack) (st : EffectLoudness α) :
    Kept (Process.analysed host fuel track range st).2 st :=
  (ProcessOne_kept host fuel range true (Process.prepare track range st)).trans_kept
    (Process_prepare_kept track range st)

theorem Process_applied_kept [Mul α] [Div α] [One α] (host : Host α) (fuel : Nat)
    (track : WaveTrack) (range : List WaveTrack) (st : EffectLoudness α) :
    Kept (Process.applied host fuel track range st).2 st :=
  ((ProcessOne_kept host fuel range false _).trans_kept (Process_setMult_kept _)).trans_kept
    (Process_analysed_kept host fuel track range st)

/-- The track loop keeps the members that it does not assign. -/
theorem track_loop_kept [Mul α] [Div α] [One α] (host : Host α) (fuel : Nat)
    (todo : List (WaveTrack × List WaveTrack)) :
    ∀ st : EffectLoudness α, Kept (Process.loop host fuel todo st).2 st := by
  induction todo with
  | nil => intro st; exact Kept.refl_kept st
  | cons p rest ih =>
    intro st
    obtain ⟨track, range⟩ := p
    rw [Process_loop_cons]
    split
    · split
      · exact (ih _).trans_kept (Process_applied_kept host fuel track range st)
      · exact Process_applied_kept host fuel track range st
    · exact Process_analysed_kept host fuel track range st

/-- `ProcessOne` on an empty clipped selection returns false and only
assigns `mTrackLen`. -/
theorem ProcessOne_empty [Mul α] (host : Host α) (fuel : Nat) (track : WaveTrack)
    (others : List WaveTrack) (analyse : Bool) (st : EffectLoudness α)
    (h : st.mCurT1 ≤ st.mCurT0) :
    (ProcessOne host fuel (track :: others) analyse st).1 = some false ∧
    (ProcessOne host fuel (track :: others) analyse st).2.samples = st.samples ∧
    (ProcessOne host fuel (track :: others) analyse st).2.log = st.log ∧
    (ProcessOne host fuel (track :: others) analyse st).2.accesses = st.accesses := by
  simp [ProcessOne, h]

theorem clippedEmpty_congr {a b : EffectLoudness α} (h : Kept a b) (track : WaveTrack) :
    clippedEmpty a track ↔ clippedEmpty b track := by
  simp only [clippedEmpty, h.mT0, h.mT1]

/-- The track loop does not return true when a track it has to visit has an
empty clipped selection. -/
theorem track_loop_empty [Mul α] [Div α] [One α] (host : Host α) (fuel : Nat)
    (todo : List (WaveTrack × List WaveTrack)) :
    ∀ st : EffectLoudness α, (∃ p ∈ todo, clippedEmpty st p.1) →
      (Process.loop host fuel todo st).1 ≠ some true := by
  induction todo with
  | nil => intro st ⟨p, hp, _⟩; simp at hp
  | cons q rest ih =>
    intro st ⟨p, hp, he⟩
    obtain ⟨track, range⟩ := q
    rw [Process_loop_cons]
    split
    · rename_i h1
      split
      · rcases List.mem_cons.1 hp with rfl | hp
        · exfalso
          cases range with
          | nil => simp [Process.analysed, ProcessOne] at h1
          | cons c cs =>
            have := (ProcessOne_empty host fuel c cs true (Process.prepare track (c :: cs) st)
              he).1
            simp only [Process.analysed] at h1
            rw [this] at h1
            simp at h1
        · apply ih
          exact ⟨p, hp, (clippedEmpty_congr (Process_applied_kept host fuel track range st)
            p.1).2 he⟩
      · assumption
    · assumption

theorem Process_start_fields (host : Host α) (tracks : TrackList) (st : EffectLoudness α) :
    (Process.start host tracks st).mStereoInd = st.mStereoInd ∧
    (Process.start host tracks st).mT0 = st.mT0 ∧
    (Process.start host tracks st).mT1 = st.mT1 ∧
    (Process.start host tracks st).mNumTracks = st.mNumTracks ∧
    (Process.start host tracks st).mProgressVal = 0 := by
  have h0 : (Process.setRatio host st).mStereoInd = st.mStereoInd ∧
      (Process.setRatio host st).mT0 = st.mT0 ∧ (Process.setRatio host st).mT1 = st.mT1 ∧
      (Process.setRatio host st).mNumTracks = st.mNumTracks := by
    unfold Process.setRatio; split <;> exact ⟨rfl, rfl, rfl, rfl⟩
  have h1 : ∀ s : EffectLoudness α, (AllocBuffers tracks s).mStereoInd = s.mStereoInd ∧
      (AllocBuffers tracks s).mT0 = s.mT0 ∧ (AllocBuffers tracks s).mT1 = s.mT1 ∧
      (AllocBuffers tracks s).mNumTracks = s.mNumTracks := by
    intro s; unfold AllocBuffers; simp only; split <;> exact ⟨rfl, rfl, rfl, rfl⟩
  obtain ⟨a1, a2, a3, a4⟩ := h1 (Process.setRatio host st)
  exact ⟨a1.trans h0.1, a2.trans h0.2.1, a3.trans h0.2.2.1, a4.trans h0.2.2.2, rfl⟩

theorem slotAccesses_inBounds (len cap : Nat) (size : Nat → Option Nat) (hlen : len ≤ cap) :
    ∀ (n idx : Nat), (∀ k, idx ≤ k → k < idx + n → k < 2 ∧ size k = some cap) →
      ∀ a ∈ slotAccesses len size n idx, a.InBounds cap := by
  intro n
  induction n with
  | zero => intro idx _ a ha; simp [slotAccesses] at ha
  | succ n ih =>
    intro idx h a ha
    simp only [slotAccesses, List.mem_cons] at ha
    rcases ha with rfl | ha
    · obtain ⟨h1, h2⟩ := h idx (le_refl _) (by omega)
      exact ⟨h1, h2, by simpa using hlen⟩
    · exact ih (idx + 1) (fun k hk1 hk2 => h k (by omega) (by omega)) a ha

theorem BuffersFit.slots {st : EffectLoudness α} {range : List WaveTrack}
    (h : BuffersFit st range) :
    ∀ k, 0 ≤ k → k < 0 + range.length →
      k < 2 ∧ st.mTrackBufferSize k = some st.mTrackBufferCapacity := by
  intro k _ hk
  obtain ⟨h1, h2, h3, h4⟩ := h
  have hk2 : k < 2 := by omega
  refine ⟨hk2, ?_⟩
  interval_cases k
  · exact h3
  · exact h4 (by omega)

theorem BuffersFit.congr_fit {a b : EffectLoudness α} {range : List WaveTrack} (hk : Kept a b)
    (h : BuffersFit b range) : BuffersFit a range := by
  obtain ⟨h1, h2, h3, h4⟩ := h
  refine ⟨h1, h2, ?_, ?_⟩
  · rw [hk.mTrackBufferSize, hk.mTrackBufferCapacity]; exact h3
  · rw [hk.mTrackBufferSize, hk.mTrackBufferCapacity]; exact h4

/-- After `LoadBufferBlock` on a group that is not empty and whose reads are
bounded, `mTrackBufferLen` is at most the length requested. -/
theorem LoadBufferBlock_len_le (range : List WaveTrack) (pos : Int) (len : Nat)
    (st : EffectLoudness α) (hne : range ≠ []) (hr : ∀ ch ∈ range, ReadsBounded ch) :
    (LoadBufferBlock range pos len st).2.mTrackBufferLen ≤ len := by
  apply LoadBufferBlock.load_loop_len (fun n => n ≤ len)
  · intro ch hch
    obtain ⟨h0, h1⟩ := hr ch hch pos len
    rw [as_size_t_of_nonneg h0]
    omega
  · intro h; exact absurd h hne

/-- After `LoadBufferBlock` on a group that is not empty and whose reads are
complete, `mTrackBufferLen` is the length requested. -/
theorem LoadBufferBlock_len_eq (range : List WaveTrack) (pos : Int) (len : Nat)
    (st : EffectLoudness α) (hne : range ≠ [])
    (hr : ∀ ch ∈ range, ∀ p l, ch.numCopied p l = (l : Int)) :
    (LoadBufferBlock range pos len st).2.mTrackBufferLen = len := by
  apply LoadBufferBlock.load_loop_len (fun n => n = len)
  · intro ch hch
    rw [hr ch hch pos len, as_size_t_of_nonneg (by omega)]
    omega
  · intro h; exact absurd h hne

/-- The buffer uses of the loop of `ProcessBufferBlock` over the indices below
`n` stay in bounds when `n` is at most the capacity and the slots used are
allocated with it. -/
theorem scaleAccesses_inBounds (stereo : Bool) (size : Nat → Option Nat) (cap : Nat)
    (h0 : size 0 = some cap) (h1 : stereo = true → size 1 = some cap) :
    ∀ n, n ≤ cap → ∀ a ∈ scaleAccesses stereo size n, a.InBounds cap := by
  intro n
  induction n with
  | zero => intro _ a ha; simp [scaleAccesses] at ha
  | succ n ih =>
    intro hn a ha
    simp only [scaleAccesses, List.mem_append, List.mem_cons] at ha
    rcases ha with ha | rfl | ha
    · exact ih (by omega) a ha
    · exact ⟨(by decide : 0 < 2), h0, hn⟩
    · split at ha
      · rename_i hs
        simp only [List.mem_singleton] at ha
        subst ha
        exact ⟨(by decide : 1 < 2), h1 hs, hn⟩
      · simp at ha

/-- The buffer uses of one turn of the block loop: the `Get` calls, then in
the apply pass the elements below `mTrackBufferLen` one by one, then the `Set`
calls when the turn was not cancelled. -/
theorem turn_accesses [Mul α] (host : Host α) (range : List WaveTrack) (analyse : Bool)
    (s : Int) (blockLen : Nat) (st : EffectLoudness α) :
    (ProcessOne.turn host range analyse s blockLen st).2.accesses
      = st.accesses ++ (slotAccesses blockLen st.mTrackBufferSize range.length 0 ++
          ((if analyse then []
            else scaleAccesses st.mProcStereo st.mTrackBufferSize
              (LoadBufferBlock range s blockLen st).2.mTrackBufferLen) ++
           (if ProcessOne.turnCancelled host range s blockLen st || analyse then []
            else slotAccesses blockLen st.mTrackBufferSize range.length 0))) := by
  have hk := LoadBufferBlock_passKept range s blockLen st
  have hlog := LoadBufferBlock_log range s blockLen st
  have hacc := LoadBufferBlock_accesses range s blockLen st
  have hs := (LoadBufferBlock_samples range s blockLen st).2
  cases analyse <;>
    cases hc : ProcessOne.turnCancelled host range s blockLen st <;>
      simp only [ProcessOne.turnCancelled, ProcessOne.turnValue] at hc <;>
      simp [ProcessOne.turn, LoadBufferBlock_fst, ProcessBufferBlock, AnalyseBufferBlock,
        ProcessBufferBlock.fold_eq, UpdateProgress, hlog, hs, hacc,
        hk.mProcStereo, hk.mNumTracks, hk.mSteps, hk.mTrackLen, hk.mTrackBufferSize, hc,
        StoreBufferBlock, StoreBufferBlock.store_loop_accesses]

/-- The buffer uses of one turn stay in bounds. -/
theorem turn_inBounds [Mul α] (host : Host α) (range : List WaveTrack) (analyse : Bool)
    (s : Int) (blockLen : Nat) (st : EffectLoudness α)
    (hfit : BuffersFit st range) (hst : st.mProcStereo = decide (range.length > 1))
    (hr : ∀ ch ∈ range, ReadsBounded ch) (hlen : blockLen ≤ st.mTrackBufferCapacity) :
    ∃ acc, (ProcessOne.turn host range analyse s blockLen st).2.accesses = st.accesses ++ acc ∧
      ∀ a ∈ acc, a.InBounds st.mTrackBufferCapacity := by
  refine ⟨_, turn_accesses host range analyse s blockLen st, ?_⟩
  have hne : range ≠ [] := by
    intro h; have := hfit.1; simp [h] at this
  have hL := LoadBufferBlock_len_le range s blockLen st hne hr
  have hslot := slotAccesses_inBounds blockLen st.mTrackBufferCapacity st.mTrackBufferSize hlen
    range.length 0 hfit.slots
  have hstereo : st.mProcStereo = true →
      st.mTrackBufferSize 1 = some st.mTrackBufferCapacity := by
    intro hs
    rw [hst] at hs
    have h2 : range.length = 2 := by
      have := hfit.2.1
      have := of_decide_eq_true hs
      omega
    exact hfit.2.2.2 h2
  intro a ha
  simp only [List.mem_append] at ha
  rcases ha with ha | ha | ha
  · exact hslot a ha
  · split at ha
    · simp at ha
    · exact scaleAccesses_inBounds st.mProcStereo st.mTrackBufferSize st.mTrackBufferCapacity
        hfit.2.2.1 hstereo _ (le_trans hL hlen) a ha
  · split at ha
    · simp at ha
    · exact hslot a ha

theorem SafeStep.same {cap : Nat} {a b : EffectLoudness α} (h1 : b.accesses = a.accesses)
    (h2 : b.log = a.log) : SafeStep cap a b :=
  ⟨[], [], by simp [h1], by simp [h2], by simp, by simp [loads]⟩

theorem SafeStep.then {cap : Nat} {a b c : EffectLoudness α} (h1 : SafeStep cap a b)
    (h2 : SafeStep cap b c) : SafeStep cap a c := by
  obtain ⟨acc1, evs1, ha1, hl1, hb1, hc1⟩ := h1
  obtain ⟨acc2, evs2, ha2, hl2, hb2, hc2⟩ := h2
  refine ⟨acc1 ++ acc2, evs1 ++ evs2, by rw [ha2, ha1, List.append_assoc],
    by rw [hl2, hl1, List.append_assoc], ?_, ?_⟩
  · intro x hx
    rcases List.mem_append.1 hx with h | h
    · exact hb1 x h
    · exact hb2 x h
  · intro p hp
    rw [loads_append] at hp
    rcases List.mem_append.1 hp with h | h
    · exact hc1 p h
    · exact hc2 p h

/-- One turn of the block loop is a safe step. -/
theorem turn_safeStep [Mul α] (host : Host α) (range : List WaveTrack) (analyse : Bool)
    (s : Int) (blockLen : Nat) (st : EffectLoudness α)
    (hfit : BuffersFit st range) (hst : st.mProcStereo = decide (range.length > 1))
    (hr : ∀ ch ∈ range, ReadsBounded ch) (hlen : blockLen ≤ st.mTrackBufferCapacity) :
    SafeStep st.mTrackBufferCapacity st (ProcessOne.turn host range analyse s blockLen st).2 := by
  obtain ⟨acc, ha, hb⟩ := turn_inBounds host range analyse s blockLen st hfit hst hr hlen
  obtain ⟨-, -, h3⟩ := ProcessOne.turn_spec host range analyse s blockLen st
  refine ⟨acc, _, ha, h3, hb, ?_⟩
  intro p hp
  rw [loads_turn] at hp
  simp only [List.mem_singleton] at hp
  subst hp
  exact hlen

/-- The block loop is a safe step, whatever the fuel. -/
theorem block_loop_safeStep [Mul α] (host : Host α) (range : List WaveTrack)
    (track : WaveTrack) (analyse : Bool) (sEnd : Int) (hr : ∀ ch ∈ range, ReadsBounded ch) :
    ∀ (fuel : Nat) (s : Int) (st : EffectLoudness α),
      BuffersFit st range → st.mProcStereo = decide (range.length > 1) →
      SafeStep st.mTrackBufferCapacity st
        (ProcessOne.loop host range track analyse sEnd fuel s st).2 := by
  intro fuel
  induction fuel with
  | zero =>
    intro s st _ _
    simp only [ProcessOne.loop]
    split <;> exact SafeStep.same rfl rfl
  | succ fuel ih =>
    intro s st hfit hst
    have ht := turn_safeStep host range analyse s (ProcessOne.blockLen track sEnd s st) st
      hfit hst hr (blockLen_le_capacity track sEnd s st)
    have hk := ProcessOne.turn_passKept host range analyse s
      (ProcessOne.blockLen track sEnd s st) st
    simp only [ProcessOne.loop]
    split
    · split
      · exact ht
      · have h2 := ih (s + (ProcessOne.blockLen track sEnd s st : Int))
          (ProcessOne.turn host range analyse s (ProcessOne.blockLen track sEnd s st) st).2
          (hfit.congr_fit hk.toKept) (by rw [hk.mProcStereo]; exact hst)
        rw [hk.mTrackBufferCapacity] at h2
        exact ht.then h2
    · exact SafeStep.same rfl rfl

/-- `ProcessOne` is a safe step, whatever the fuel. -/
theorem ProcessOne_safeStep [Mul α] (host : Host α) (fuel : Nat) (range : List WaveTrack)
    (analyse : Bool) (st : EffectLoudness α) (hr : ∀ ch ∈ range, ReadsBounded ch)
    (hfit : BuffersFit st range) (hst : st.mProcStereo = decide (range.length > 1)) :
    SafeStep st.mTrackBufferCapacity st (ProcessOne host fuel range analyse st).2 := by
  cases range with
  | nil => exact SafeStep.same rfl rfl
  | cons track rest =>
    simp only [ProcessOne]
    split
    · exact SafeStep.same rfl rfl
    · exact block_loop_safeStep host (track :: rest) track analyse
        (track.TimeToLongSamples st.mCurT1) hr fuel (track.TimeToLongSamples st.mCurT0)
        { st with mTrackLen :=
            ((track.TimeToLongSamples st.mCurT1 - track.TimeToLongSamples st.mCurT0 : Int) : ℚ) }
        hfit hst

theorem ProcessOne_procStereo [Mul α] (host : Host α) (fuel : Nat) (range : List WaveTrack)
    (analyse : Bool) (st : EffectLoudness α) :
    (ProcessOne host fuel range analyse st).2.mProcStereo = st.mProcStereo ∧
    (ProcessOne host fuel range analyse st).2.mSteps = st.mSteps ∧
    (ProcessOne host fuel range analyse st).2.mMult = st.mMult := by
  cases range with
  | nil => exact ⟨rfl, rfl, rfl⟩
  | cons c cs =>
    simp only [ProcessOne]
    split
    · exact ⟨rfl, rfl, rfl⟩
    · have h := block_loop_passKept host (c :: cs) c analyse (c.TimeToLongSamples st.mCurT1)
        fuel (c.TimeToLongSamples st.mCurT0)
        { st with mTrackLen :=
            ((c.TimeToLongSamples st.mCurT1 - c.TimeToLongSamples st.mCurT0 : Int) : ℚ) }
      exact ⟨h.mProcStereo, h.mSteps, h.mMult⟩

/-- The analysis pass of a track is a safe step. -/
theorem Process_analysed_safeStep [Mul α] (host : Host α) (fuel : Nat) (track : WaveTrack)
    (range : List WaveTrack) (st : EffectLoudness α) (hfit : BuffersFit st range)
    (hr : ∀ ch ∈ range, ReadsBounded ch) :
    SafeStep st.mTrackBufferCapacity st (Process.analysed host fuel track range st).2 := by
  have kp := Process_prepare_kept track range st
  have s1 := ProcessOne_safeStep host fuel range true (Process.prepare track range st) hr
    (hfit.congr_fit kp) rfl
  rw [kp.mTrackBufferCapacity] at s1
  exact SafeStep.then (SafeStep.same rfl rfl) s1

/-- The apply pass of a track is a safe step. -/
theorem Process_applied_safeStep [Mul α] [Div α] [One α] (host : Host α) (fuel : Nat)
    (track : WaveTrack) (range : List WaveTrack) (st : EffectLoudness α)
    (hfit : BuffersFit st range) (hr : ∀ ch ∈ range, ReadsBounded ch) :
    SafeStep st.mTrackBufferCapacity st (Process.applied host fuel track range st).2 := by
  have k1 := Process_analysed_kept host fuel track range st
  have k0 := (Process_setMult_kept (Process.analysed host fuel track range st).2).trans_kept k1
  have hps : (Process.setMult (Process.analysed host fuel track range st).2).mProcStereo
      = decide (range.length > 1) :=
    (ProcessOne_procStereo host fuel range true (Process.prepare track range st)).1
  have s2 := ProcessOne_safeStep host fuel range false
    (Process.setMult (Process.analysed host fuel track range st).2) hr (hfit.congr_fit k0) hps
  rw [k0.mTrackBufferCapacity] at s2
  exact (Process_analysed_safeStep host fuel track range st hfit hr).then
    (SafeStep.then (SafeStep.same rfl rfl) s2)

/-- The track loop of `Process` is a safe step, whatever the fuel. -/
theorem track_loop_safeStep [Mul α] [Div α] [One α] (host : Host α) (fuel : Nat)
    (todo : List (WaveTrack × List WaveTrack)) :
    ∀ st : EffectLoudness α,
      (∀ p ∈ todo, BuffersFit st p.2 ∧ ∀ ch ∈ p.2, ReadsBounded ch) →
      SafeStep st.mTrackBufferCapacity st (Process.loop host fuel todo st).2 := by
  induction todo with
  | nil => intro st _; exact SafeStep.same rfl rfl
  | cons q rest ih =>
    intro st h
    obtain ⟨track, range⟩ := q
    obtain ⟨hfit, hr⟩ := h (track, range) (List.mem_cons_self _ _)
    have k2 := Process_applied_kept host fuel track range st
    rw [Process_loop_cons]
    split
    · split
      · have s3 := ih (Process.applied host fuel track range st).2 (fun p hp =>
          ⟨(h p (List.mem_cons_of_mem _ hp)).1.congr_fit k2, (h p (List.mem_cons_of_mem _ hp)).2⟩)
        rw [k2.mTrackBufferCapacity] at s3
        exact (Process_applied_safeStep host fuel track range st hfit hr).then s3
      · exact Process_applied_safeStep host fuel track range st hfit hr
    · exact Process_analysed_safeStep host fuel track range st hfit hr

/-- C4 (as amended): a track whose clipped selection is empty is not altered
but it makes the operation fail. `ProcessOne` returns false for it without
any call to the track, the track loop of `Process` stops there with false,
leaving the samples and the trace as they were (no later track is
processed), and `Process` does not return true when it has to visit such a
track. -/
theorem Process_empty_selection_fails [Mul α] [Div α] [One α] (host : Host α) (fuel : Nat) :
    (∀ (track c : WaveTrack) (cs : List WaveTrack) (rest : List (WaveTrack × List WaveTrack))
        (st : EffectLoudness α), clippedEmpty st track →
        (Process.loop host fuel ((track, c :: cs) :: rest) st).1 = some false ∧
        (Process.loop host fuel ((track, c :: cs) :: rest) st).2.samples = st.samples ∧
        (Process.loop host fuel ((track, c :: cs) :: rest) st).2.log = st.log) ∧
    (∀ (tracks : TrackList) (st : EffectLoudness α),
        (∃ p ∈ processRanges tracks st.mStereoInd, clippedEmpty st p.1) →
        (Process host fuel tracks st).1 ≠ some true) := by
  constructor
  · intro track c cs rest st he
    obtain ⟨h1, h2, h3, -⟩ := ProcessOne_empty host fuel c cs true
      (Process.prepare track (c :: cs) st) he
    rw [Process_loop_cons]
    simp only [Process.analysed, h1, Option.some.injEq, Bool.false_eq_true, if_false]
    exact ⟨trivial, h2, h3⟩
  · intro tracks st ⟨p, hp, he⟩
    obtain ⟨f1, f2, f3, -, -⟩ := Process_start_fields host tracks st
    have hl := track_loop_empty host fuel
      (processRanges tracks (Process.start host tracks st).mStereoInd)
      (Process.start host tracks st)
      ⟨p, by rw [f1]; exact hp, by simpa only [clippedEmpty, f2, f3] using he⟩
    simp only [Process]
    rcases hr : Process.loop host fuel
      (processRanges tracks (Process.start host tracks st).mStereoInd)
      (Process.start host tracks st) with ⟨r, st4⟩
    rw [hr] at hl
    rcases r with _ | b
    · simp
    · simpa using hl

/-- A run for the amended C4: the first of two selected tracks lies outside
the selection. -/
theorem Process_empty_selection_fails_witness :
    (Process demoHost 9 [[demoTrack 0 true 20 28], [demoTrack 1 true 0 8]]
      (demoEffect true 2)).1 ≠ some true :=
  (Process_empty_selection_fails demoHost 9).2
    [[demoTrack 0 true 20 28], [demoTrack 1 true 0 8]] (demoEffect true 2)
    ⟨(demoTrack 0 true 20 28, [demoTrack 0 true 20 28]),
      by simp [processRanges, selectedTracks, demoTrack, demoEffect],
      by norm_num [clippedEmpty, demoTrack, demoEffect]⟩

/-- C4 (counterexample): the track with samples `[0, 8)` is processed with
success when it is alone, but when a selected track whose clipped selection
is empty comes first, `Process` returns false and makes no call at all: the
remaining track is not processed. -/
theorem Process_empty_selection_counterexample :
    (Process demoHost 9 [[demoTrack 1 true 0 8]] (demoEffect true 1)).1 = some true ∧
    (Process demoHost 9 [[demoTrack 0 true 20 28], [demoTrack 1 true 0 8]]
      (demoEffect true 2)).1 = some false ∧
    (Process demoHost 9 [[demoTrack 0 true 20 28], [demoTrack 1 true 0 8]]
      (demoEffect true 2)).2.log = [] := by
  refine ⟨by decide!, by decide!, by decide!⟩

theorem scan_foldl (sel : List (WaveTrack × Bool)) :
    ∀ acc : Nat × Bool × ℚ,
      (sel.foldl (fun acc p =>
        (max acc.1 p.1.GetMaxBlockSize, (if p.2 then true else acc.2.1),
          max acc.2.2 p.1.GetRate)) acc).1
        = (sel.map fun p => p.1.GetMaxBlockSize).foldl max acc.1 ∧
      ((acc.2.1 = true ∨ ∃ p ∈ sel, p.2 = true) →
        (sel.foldl (fun acc p =>
          (max acc.1 p.1.GetMaxBlockSize, (if p.2 then true else acc.2.1),
            max acc.2.2 p.1.GetRate)) acc).2.1 = true) := by
  induction sel with
  | nil =>
    intro acc
    refine ⟨rfl, ?_⟩
    rintro (h | ⟨p, hp, _⟩)
    · exact h
    · simp at hp
  | cons q rest ih =>
    intro acc
    simp only [List.foldl_cons, List.map_cons]
    obtain ⟨h1, h2⟩ := ih (max acc.1 q.1.GetMaxBlockSize, (if q.2 then true else acc.2.1),
      max acc.2.2 q.1.GetRate)
    refine ⟨h1, ?_⟩
    intro h
    apply h2
    rcases h with h | ⟨p, hp, hpt⟩
    · left; simp [h]
    · rcases List.mem_cons.1 hp with rfl | hp
      · left; simp [hpt]
      · right; exact ⟨p, hp, hpt⟩

/-- The capacity computed by `AllocBuffers` is the maximum of
`GetMaxBlockSize` over the selected tracks, and a stereo track is found as
soon as a selected track is a leader. -/
theorem scan_spec (sel : List (WaveTrack × Bool)) :
    (AllocBuffers.scan sel).1 = (sel.map fun p => p.1.GetMaxBlockSize).foldl max 0 ∧
    ((∃ p ∈ sel, p.2 = true) → (AllocBuffers.scan sel).2.1 = true) := by
  obtain ⟨h1, h2⟩ := scan_foldl sel (0, false, 0)
  exact ⟨h1, fun h => h2 (Or.inr h)⟩

theorem AllocBuffers_spec (tracks : TrackList) (st : EffectLoudness α) :
    (AllocBuffers tracks st).mTrackBufferCapacity
        = (AllocBuffers.scan (selectedTracks tracks)).1 ∧
    (AllocBuffers tracks st).mTrackBufferSize 0
        = some (AllocBuffers.scan (selectedTracks tracks)).1 ∧
    (st.mStereoInd = false → (AllocBuffers.scan (selectedTracks tracks)).2.1 = true →
      (AllocBuffers tracks st).mTrackBufferSize 1
        = some (AllocBuffers.scan (selectedTracks tracks)).1) := by
  unfold AllocBuffers
  simp only
  split
  · refine ⟨rfl, by simp, fun _ _ => by simp⟩
  · rename_i h
    refine ⟨rfl, by simp, fun h1 h2 => ?_⟩
    simp [h1, h2] at h

theorem Process_start_buffers (host : Host α) (tracks : TrackList) (st : EffectLoudness α) :
    (Process.start host tracks st).mTrackBufferCapacity
        = (AllocBuffers.scan (selectedTracks tracks)).1 ∧
    (Process.start host tracks st).mTrackBufferSize 0
        = some (AllocBuffers.scan (selectedTracks tracks)).1 ∧
    (st.mStereoInd = false → (AllocBuffers.scan (selectedTracks tracks)).2.1 = true →
      (Process.start host tracks st).mTrackBufferSize 1
        = some (AllocBuffers.scan (selectedTracks tracks)).1) := by
  have h0 : (Process.setRatio host st).mStereoInd = st.mStereoInd := by
    unfold Process.setRatio; split <;> rfl
  obtain ⟨h1, h2, h3⟩ := AllocBuffers_spec tracks (Process.setRatio host st)
  exact ⟨h1, h2, fun a b => h3 (h0.trans a) b⟩

theorem mem_selectedTracks_leader {tracks : TrackList} {t : WaveTrack} {rest : List WaveTrack}
    (hg : (t :: rest) ∈ tracks) (hs : t.GetSelected = true) :
    (t, true) ∈ selectedTracks tracks := by
  simp only [selectedTracks, List.mem_filter, List.mem_flatMap]
  exact ⟨⟨t :: rest, hg, by simp⟩, by simpa using hs⟩

theorem mem_selectedTracks {tracks : TrackList} {p : WaveTrack × Bool}
    (h : p ∈ selectedTracks tracks) :
    (∃ g ∈ tracks, p.1 ∈ g) ∧ p.1.GetSelected = true := by
  simp only [selectedTracks, List.mem_filter, List.mem_flatMap] at h
  obtain ⟨⟨g, hg, hp⟩, hs⟩ := h
  refine ⟨⟨g, hg, ?_⟩, by simpa using hs⟩
  cases g with
  | nil => simp at hp
  | cons t rest =>
    simp only [List.mem_cons, List.mem_map] at hp
    rcases hp with rfl | ⟨c, hc, rfl⟩
    · simp
    · simp [hc]

/-- The ranges visited by `Process`: in independent mode the single selected
channel, in linked mode a whole group whose leader is selected. -/
theorem mem_processRanges {tracks : TrackList} {ind : Bool} {p : WaveTrack × List WaveTrack}
    (h : p ∈ processRanges tracks ind) :
    (ind = true ∧ p.2 = [p.1] ∧ p.1.GetSelected = true ∧ ∃ g ∈ tracks, p.1 ∈ g) ∨
    (ind = false ∧ p.2 ∈ tracks ∧ p.1.GetSelected = true ∧ ∃ rest, p.2 = p.1 :: rest) := by
  cases ind with
  | true =>
    left
    simp only [processRanges, if_true, List.mem_map] at h
    obtain ⟨q, hq, rfl⟩ := h
    obtain ⟨h1, h2⟩ := mem_selectedTracks hq
    exact ⟨rfl, rfl, h2, h1⟩
  | false =>
    right
    simp only [processRanges, Bool.false_eq_true, if_false, List.mem_filterMap] at h
    obtain ⟨g, hg, hp⟩ := h
    cases g with
    | nil => simp at hp
    | cons t rest =>
      by_cases hs : t.GetSelected = true
      · simp only [hs, if_true, Option.some.injEq] at hp
        subst hp
        exact ⟨rfl, hg, hs, rest, rfl⟩
      · simp [hs] at hp

/-- C10: when every channel group has at most two channels and every read
reports a count between 0 and the length requested, every use of
`mTrackBuffer` made during `Process` (whatever the fuel and the answers of
the progress callback) is in bounds: the slot is 0 or 1, it has been
allocated by `AllocBuffers` with the capacity, which is the maximum of
`GetMaxBlockSize` over the selected tracks, the elements used (the block of a
`Get` or `Set`, each single index `i` of the loop of `ProcessBufferBlock`)
lie below that capacity, and every block length passed to `LoadBufferBlock`
is at most that capacity. -/
theorem Process_buffer_accesses_in_bounds [Mul α] [Div α] [One α] (host : Host α) (fuel : Nat)
    (tracks : TrackList) (st : EffectLoudness α)
    (hgroups : ∀ g ∈ tracks, g.length ≤ 2)
    (hreads : ∀ g ∈ tracks, ∀ ch ∈ g, ReadsBounded ch) :
    ∃ acc evs,
      (Process host fuel tracks st).2.accesses = st.accesses ++ acc ∧
      (Process host fuel tracks st).2.log = st.log ++ evs ∧
      (∀ a ∈ acc, a.slot < 2 ∧
        a.size = some (((selectedTracks tracks).map fun p => p.1.GetMaxBlockSize).foldl max 0) ∧
        a.first + a.count
          ≤ ((selectedTracks tracks).map fun p => p.1.GetMaxBlockSize).foldl max 0) ∧
      ∀ b ∈ loads evs,
        b.2 ≤ ((selectedTracks tracks).map fun p => p.1.GetMaxBlockSize).foldl max 0 := by
  obtain ⟨c1, c2, c3⟩ := Process_start_buffers host tracks st
  obtain ⟨f1, -, -, -, -⟩ := Process_start_fields host tracks st
  obtain ⟨sc1, sc2⟩ := scan_spec (selectedTracks tracks)
  obtain ⟨l1, l2, -⟩ := Process.start_log host tracks st
  have hfit : ∀ p ∈ processRanges tracks (Process.start host tracks st).mStereoInd,
      BuffersFit (Process.start host tracks st) p.2 ∧ ∀ ch ∈ p.2, ReadsBounded ch := by
    intro p hp
    rcases mem_processRanges hp with ⟨hi, h2, -, g, hg, hpg⟩ | ⟨hi, h2, hs, rest, h4⟩
    · refine ⟨⟨by simp [h2], by simp [h2], by rw [c2, c1], by simp [h2]⟩, ?_⟩
      intro ch hch
      rw [h2] at hch
      simp only [List.mem_singleton] at hch
      subst hch
      exact hreads g hg _ hpg
    · refine ⟨⟨by simp [h4], hgroups _ h2, by rw [c2, c1], fun _ => ?_⟩, hreads _ h2⟩
      rw [c1]
      refine c3 (f1.symm.trans hi) (sc2 ⟨(p.1, true), ?_, rfl⟩)
      rw [h4] at h2
      exact mem_selectedTracks_leader h2 hs
  obtain ⟨acc, evs, ha, hl, hb, hc⟩ := track_loop_safeStep host fuel _ _ hfit
  rw [c1, sc1] at hb hc
  rw [l1] at hl
  rw [l2] at ha
  simp only [Process]
  rcases hr : Process.loop host fuel
    (processRanges tracks (Process.start host tracks st).mStereoInd)
    (Process.start host tracks st) with ⟨r, st4⟩
  rw [hr] at ha hl
  rcases r with _ | b
  · exact ⟨acc, evs, ha, hl, hb, hc⟩
  · exact ⟨acc, evs, ha, hl, hb, hc⟩

/-- A run for C10: a linked stereo pair. -/
theorem Process_buffer_accesses_in_bounds_witness :
    ∃ acc evs,
      (Process demoHost 9 [[demoTrack 0 true 0 8, demoTrack 1 true 0 8]]
        (demoEffect false 2)).2.accesses = [] ++ acc ∧
      (Process demoHost 9 [[demoTrack 0 true 0 8, demoTrack 1 true 0 8]]
        (demoEffect false 2)).2.log = [] ++ evs ∧
      (∀ a ∈ acc, a.slot < 2 ∧ a.size = some 4 ∧ a.first + a.count ≤ 4) ∧
      ∀ b ∈ loads evs, b.2 ≤ 4 :=
  Process_buffer_accesses_in_bounds demoHost 9 [[demoTrack 0 true 0 8, demoTrack 1 true 0 8]]
    (demoEffect false 2) (by decide)
    (by
      intro g hg ch hch pos len
      simp only [List.mem_singleton] at hg
      subst hg
      simp only [List.mem_cons, List.mem_singleton, List.not_mem_nil, or_false] at hch
      rcases hch with rfl | rfl <;> simp [demoTrack])

/-- The samples after one turn of the apply pass on a group of one channel
whose read is complete. -/
theorem turn_samples_mono [Mul α] (host : Host α) (a : WaveTrack) (s : Int) (blockLen : Nat)
    (st : EffectLoudness α) (hst : st.mProcStereo = false)
    (hread : ∀ pos len, a.numCopied pos len = (len : Int))
    (hcancel : ∀ h v, host.TotalProgress h v = false) (c : Nat) (p : Int) :
    (ProcessOne.turn host [a] false s blockLen st).2.samples c p
      = if c = a.id ∧ s ≤ p ∧ p < s + (blockLen : Int) then st.samples c p * st.mMult
        else st.samples c p := by
  have hsz : as_size_t (blockLen : Int) = blockLen := by
    rw [as_size_t_of_nonneg (by omega)]; omega
  simp only [ProcessOne.turn, LoadBufferBlock, LoadBufferBlock.loop, WaveTrack.Get,
    ProcessBufferBlock, ProcessBufferBlock.fold_eq, UpdateProgress, hcancel, hread, hsz, hst,
    StoreBufferBlock, StoreBufferBlock.loop, WaveTrack.Set, ne_eq, not_true_eq_false,
    false_and, if_false, Bool.not_true, Bool.not_false, Bool.false_eq_true, if_true]
  by_cases h : c = a.id ∧ s ≤ p ∧ p < s + (blockLen : Int)
  · obtain ⟨h1, h2, h3⟩ := h
    have h4 : (p - s).toNat < blockLen := by omega
    have h5 : s + ((p - s).toNat : Int) = p := by omega
    simp [h1, h2, h3, h4, h5]
  · simp only [h, if_false]

end Loudness
namespace Loudness
variable {α : Type}

/-- The samples after one turn of the apply pass on a group of two channels
whose reads are complete. -/
theorem turn_samples_stereo [Mul α] (host : Host α) (a b : WaveTrack) (s : Int)
    (blockLen : Nat) (st : EffectLoudness α) (hst : st.mProcStereo = true)
    (hid : a.id ≠ b.id)
    (hra : ∀ pos len, a.numCopied pos len = (len : Int))
    (hrb : ∀ pos len, b.numCopied pos len = (len : Int))
    (hcancel : ∀ h v, host.TotalProgress h v = false) (c : Nat) (p : Int) :
    (ProcessOne.turn host [a, b] false s blockLen st).2.samples c p
      = if (c = a.id ∨ c = b.id) ∧ s ≤ p ∧ p < s + (blockLen : Int) then
          st.samples c p * st.mMult
        else st.samples c p := by
  have hsz : as_size_t (blockLen : Int) = blockLen := by
    rw [as_size_t_of_nonneg (by omega)]; omega
  simp only [ProcessOne.turn, LoadBufferBlock, LoadBufferBlock.loop, WaveTrack.Get,
    ProcessBufferBlock, ProcessBufferBlock.fold_eq, UpdateProgress, hcancel, hra, hrb, hsz, hst,
    StoreBufferBlock, StoreBufferBlock.loop, WaveTrack.Set, ne_eq, not_true_eq_false,
    false_and, if_false, Bool.not_true, Bool.not_false, Bool.false_eq_true, if_true]
  by_cases hr : s ≤ p ∧ p < s + (blockLen : Int)
  · obtain ⟨h2, h3⟩ := hr
    have h4 : (p - s).toNat < blockLen := by omega
    have h5 : s + ((p - s).toNat : Int) = p := by omega
    by_cases hb : c = b.id
    · simp [hb, h2, h3, h4, h5]
    · by_cases ha : c = a.id
      · have hab : ¬ a.id = b.id := hid
        simp [ha, hab, h2, h3, h4, h5]
      · simp [ha, hb]
  · have h1 : ¬ ((c = a.id ∨ c = b.id) ∧ s ≤ p ∧ p < s + (blockLen : Int)) :=
      fun h => hr h.2
    have h2 : ¬ (c = b.id ∧ s ≤ p ∧ p < s + (blockLen : Int)) := fun h => hr h.2
    have h3 : ¬ (c = a.id ∧ s ≤ p ∧ p < s + (blockLen : Int)) := fun h => hr h.2
    simp only [h1, h2, h3, if_false]

end Loudness
namespace Loudness
variable {α : Type}

/-- The samples after one turn of the apply pass on a group of one or two
distinct channels whose reads are complete, with `mProcStereo` as `Process`
sets it. -/
theorem turn_samples [Mul α] (host : Host α) (track : WaveTrack) (others : List WaveTrack)
    (s : Int) (blockLen : Nat) (st : EffectLoudness α)
    (hlen : others.length ≤ 1)
    (hid : ((track :: others).map fun ch => ch.id).Nodup)
    (hst : st.mProcStereo = decide ((track :: others).length > 1))
    (hreads : ∀ ch ∈ track :: others, ∀ pos len, ch.numCopied pos len = (len : Int))
    (hcancel : ∀ h v, host.TotalProgress h v = false) (c : Nat) (p : Int) :
    (ProcessOne.turn host (track :: others) false s blockLen st).2.samples c p
      = if c ∈ ((track :: others).map fun ch => ch.id) ∧ s ≤ p ∧ p < s + (blockLen : Int) then
          st.samples c p * st.mMult
        else st.samples c p := by
  cases others with
  | nil =>
    rw [turn_samples_mono host track s blockLen st (by simpa using hst)
      (hreads track (List.mem_cons_self _ _)) hcancel]
    simp
  | cons b rest =>
    cases rest with
    | nil =>
      rw [turn_samples_stereo host track b s blockLen st (by simpa using hst)
        (by simpa using hid) (hreads track (by simp)) (hreads b (by simp)) hcancel]
      simp
    | cons x xs => simp at hlen

/-- With complete reads, a callback that never cancels, positive block sizes
and enough fuel, the block loop of the apply pass ends with true and has
multiplied by `mMult` the samples of the group from the cursor to the end. -/
theorem block_loop_samples [Mul α] (host : Host α) (track : WaveTrack)
    (others : List WaveTrack) (sEnd : Int)
    (hlen : others.length ≤ 1)
    (hid : ((track :: others).map fun ch => ch.id).Nodup)
    (hreads : ∀ ch ∈ track :: others, ∀ pos len, ch.numCopied pos len = (len : Int))
    (hcancel : ∀ h v, host.TotalProgress h v = false)
    (hbest : ∀ p, 1 ≤ track.GetBestBlockSize p) :
    ∀ (fuel : Nat) (s : Int) (st : EffectLoudness α),
      (sEnd - s).toNat ≤ fuel → 1 ≤ st.mTrackBufferCapacity →
      st.mProcStereo = decide ((track :: others).length > 1) →
      (ProcessOne.loop host (track :: others) track false sEnd fuel s st).1 = some true ∧
      ∀ c p, (ProcessOne.loop host (track :: others) track false sEnd fuel s st).2.samples c p
        = if c ∈ ((track :: others).map fun ch => ch.id) ∧ s ≤ p ∧ p < sEnd then
            st.samples c p * st.mMult
          else st.samples c p := by
  intro fuel
  induction fuel with
  | zero =>
    intro s st hf _ _
    have hs : ¬ s < sEnd := by omega
    simp only [ProcessOne.loop, hs, if_false, true_and]
    intro c p
    have : ¬ (s ≤ p ∧ p < sEnd) := by omega
    simp [this]
  | succ fuel ih =>
    intro s st hf hcap hst
    by_cases hlt : s < sEnd
    · obtain ⟨hb1, -, -, hb4⟩ := blockLen_bounds track sEnd s st hlt hcap hbest
      obtain ⟨h1, -, -⟩ := ProcessOne.turn_spec host (track :: others) false s
        (ProcessOne.blockLen track sEnd s st) st
      have hc : ProcessOne.turnCancelled host (track :: others) s
          (ProcessOne.blockLen track sEnd s st) st = false := hcancel _ _
      rw [hc] at h1
      have hk := ProcessOne.turn_passKept host (track :: others) false s
        (ProcessOne.blockLen track sEnd s st) st
      obtain ⟨ih1, ih2⟩ := ih (s + (ProcessOne.blockLen track sEnd s st : Int))
        (ProcessOne.turn host (track :: others) false s
          (ProcessOne.blockLen track sEnd s st) st).2
        (by omega) (by rw [hk.mTrackBufferCapacity]; exact hcap)
        (by rw [hk.mProcStereo]; exact hst)
      simp only [ProcessOne.loop, hlt, if_true, h1, Bool.not_false, Bool.not_true,
        Bool.false_eq_true, if_false]
      refine ⟨ih1, ?_⟩
      intro c p
      rw [ih2 c p, hk.mMult,
        turn_samples host track others s _ st hlen hid hst hreads hcancel c p]
      by_cases hm : c ∈ ((track :: others).map fun ch => ch.id)
      · simp only [hm, true_and]
        split_ifs <;> first | rfl | (exfalso; omega)
      · simp only [hm, false_and, if_false]
    · simp only [ProcessOne.loop, hlt, if_false, true_and]
      intro c p
      have : ¬ (s ≤ p ∧ p < sEnd) := by omega
      simp [this]

/-- C2: for a channel group of one or two (distinct) channels and a
non-empty range `[start, end)`, when every read reports exactly the length
requested and the progress callback never cancels, the apply pass
`ProcessOne(range, false)`, run with `mProcStereo` as `Process` sets it,
positive block sizes and enough fuel, returns true and leaves every channel of
the group with each sample at a position in `[start, end)` equal to its
original value multiplied by `mMult` and each sample outside `[start, end)`
unchanged; the samples of the other channels are unchanged too. -/
theorem apply_pass_scales_range [Mul α] (host : Host α) (fuel : Nat) (track : WaveTrack)
    (others : List WaveTrack) (st : EffectLoudness α)
    (hlen : others.length ≤ 1)
    (hid : ((track :: others).map fun ch => ch.id).Nodup)
    (hT : st.mCurT0 < st.mCurT1)
    (hst : st.mProcStereo = decide ((track :: others).length > 1))
    (hcap : 1 ≤ st.mTrackBufferCapacity)
    (hbest : ∀ p, 1 ≤ track.GetBestBlockSize p)
    (hreads : ∀ ch ∈ track :: others, ∀ pos len, ch.numCopied pos len = (len : Int))
    (hcancel : ∀ h v, host.TotalProgress h v = false)
    (hfuel : (track.TimeToLongSamples st.mCurT1 - track.TimeToLongSamples st.mCurT0).toNat
      ≤ fuel) :
    (ProcessOne host fuel (track :: others) false st).1 = some true ∧
    (∀ ch ∈ track :: others, ∀ p : Int,
      (ProcessOne host fuel (track :: others) false st).2.samples ch.id p
        = if track.TimeToLongSamples st.mCurT0 ≤ p ∧ p < track.TimeToLongSamples st.mCurT1 then
            st.samples ch.id p * st.mMult
          else st.samples ch.id p) ∧
    (∀ c : Nat, c ∉ ((track :: others).map fun ch => ch.id) → ∀ p : Int,
      (ProcessOne host fuel (track :: others) false st).2.samples c p = st.samples c p) := by
  have hg : ¬ st.mCurT1 ≤ st.mCurT0 := not_le.2 hT
  obtain ⟨h1, h2⟩ := block_loop_samples host track others (track.TimeToLongSamples st.mCurT1)
    hlen hid hreads hcancel hbest fuel (track.TimeToLongSamples st.mCurT0)
    { st with mTrackLen :=
        ((track.TimeToLongSamples st.mCurT1 - track.TimeToLongSamples st.mCurT0 : Int) : ℚ) }
    hfuel hcap hst
  simp only [ProcessOne, hg, if_false]
  refine ⟨h1, ?_, ?_⟩
  · intro ch hch p
    rw [h2 ch.id p]
    have hm : ch.id ∈ ((track :: others).map fun ch => ch.id) := List.mem_map_of_mem _ hch
    simp only [hm, true_and]
  · intro c hc p
    rw [h2 c p]
    simp only [hc, false_and, if_false]

/-- A run for C2: a stereo pair with the samples 3, the factor 5 and the
range `[0, 8)`. -/
theorem apply_pass_scales_range_witness :
    (ProcessOne demoHost 8 [demoTrack 0 true 0 8, demoTrack 1 true 0 8] false
      { demoEffect false 2 with
        mCurT1 := 8, mTrackBufferCapacity := 4, mProcStereo := true, mMult := 5 }).1
      = some true ∧
    (∀ ch ∈ [demoTrack 0 true 0 8, demoTrack 1 true 0 8], ∀ p : Int,
      (ProcessOne demoHost 8 [demoTrack 0 true 0 8, demoTrack 1 true 0 8] false
        { demoEffect false 2 with
          mCurT1 := 8, mTrackBufferCapacity := 4, mProcStereo := true, mMult := 5 }).2.samples
            ch.id p
        = if (0 : Int) ≤ p ∧ p < 8 then (3 : ℚ) * 5 else 3) :=
  (apply_pass_scales_range demoHost 8 (demoTrack 0 true 0 8) [demoTrack 1 true 0 8]
    { demoEffect false 2 with
      mCurT1 := 8, mTrackBufferCapacity := 4, mProcStereo := true, mMult := 5 }
    (by decide) (by decide) (by decide!) (by decide) (by decide)
    (fun _ => (by decide : 1 ≤ 4))
    (by
      intro ch hch pos len
      simp only [List.mem_cons, List.mem_singleton, List.not_mem_nil, or_false] at hch
      rcases hch with rfl | rfl <;> rfl)
    (fun _ _ => rfl) (by decide!)).imp_right And.left

theorem reports_append (a b : List Event) : reports (a ++ b) = reports a ++ reports b := by
  induction a with
  | nil => rfl
  | cons e rest ih => cases e <;> simp [reports, ih]

theorem reports_getEvents (pos : Int) (len : Nat) (range : List WaveTrack) :
    ∀ idx, reports (getEvents pos len range idx) = [] := by
  induction range with
  | nil => intro idx; rfl
  | cons ch rest ih => intro idx; simp [getEvents, reports, ih]

theorem reports_setEvents (pos : Int) (len : Nat) (range : List WaveTrack) :
    ∀ idx, reports (setEvents pos len range idx) = [] := by
  induction range with
  | nil => intro idx; rfl
  | cons ch rest ih => intro idx; simp [setEvents, reports, ih]

/-- The progress values reported by one turn of the block loop. -/
theorem reports_turn (range : List WaveTrack) (s : Int) (blockLen : Nat) (v : ℚ) (c b : Bool) :
    reports (Event.load s blockLen :: getEvents s blockLen range 0 ++
      Event.progress v c :: (if b then [] else setEvents s blockLen range 0))
      = [v] := by
  cases b <;> simp [reports, reports_append, reports_getEvents, reports_setEvents]

theorem Rising.none (lo : ℚ) : Rising lo lo [] := by
  refine ⟨List.Pairwise.nil, ?_, le_refl _, rfl⟩
  intro v hv; simp at hv

theorem Rising.one {lo v : ℚ} (h : lo ≤ v) : Rising lo v [v] := by
  refine ⟨List.pairwise_singleton _ _, ?_, h, rfl⟩
  intro w hw
  simp only [List.mem_singleton] at hw
  subst hw
  exact ⟨h, le_refl _⟩

theorem Rising.join {a b c : ℚ} {l1 l2 : List ℚ} (h1 : Rising a b l1) (h2 : Rising b c l2) :
    Rising a c (l1 ++ l2) := by
  obtain ⟨p1, b1, o1, e1⟩ := h1
  obtain ⟨p2, b2, o2, e2⟩ := h2
  refine ⟨?_, ?_, le_trans o1 o2, ?_⟩
  · rw [List.pairwise_append]
    refine ⟨p1, p2, ?_⟩
    intro x hx y hy
    exact le_trans (b1 x hx).2 (b2 y hy).1
  · intro v hv
    rcases List.mem_append.1 hv with h | h
    · exact ⟨(b1 v h).1, le_trans (b1 v h).2 o2⟩
    · exact ⟨le_trans o1 (b2 v h).1, (b2 v h).2⟩
  · rw [List.getLast?_append]
    cases hl : l2.getLast? with
    | none =>
      rw [hl] at e2
      simp only [Option.getD_none] at e2
      simp only [Option.none_or]
      rw [e1, e2]
    | some x =>
      rw [hl] at e2
      simpa using e2

/-- The progress value reported by a turn whose reads are complete. -/
theorem turnValue_exact (range : List WaveTrack) (s : Int) (blockLen : Nat)
    (st : EffectLoudness α) (hne : range ≠ [])
    (hreads : ∀ ch ∈ range, ∀ pos len, ch.numCopied pos len = (len : Int)) :
    ProcessOne.turnValue range s blockLen st
      = st.mProgressVal + ((1 + (if st.mProcStereo then 1 else 0) : ℚ) * (blockLen : ℚ)
          / ((st.mNumTracks : ℚ) * (st.mSteps : ℚ) * st.mTrackLen)) := by
  simp only [ProcessOne.turnValue, LoadBufferBlock_len_eq range s blockLen st hne hreads]

/-- With complete reads, a callback that never cancels, positive block sizes
and enough fuel, the progress values reported by the block loop rise from the
value at the cursor by the share of the samples up to the end of the range. -/
theorem block_loop_progress [Mul α] (host : Host α) (range : List WaveTrack)
    (track : WaveTrack) (analyse : Bool) (sEnd : Int) (hne : range ≠ [])
    (hreads : ∀ ch ∈ range, ∀ pos len, ch.numCopied pos len = (len : Int))
    (hcancel : ∀ h v, host.TotalProgress h v = false)
    (hbest : ∀ p, 1 ≤ track.GetBestBlockSize p) :
    ∀ (fuel : Nat) (s : Int) (st : EffectLoudness α),
      s ≤ sEnd → (sEnd - s).toNat ≤ fuel → 1 ≤ st.mTrackBufferCapacity →
      0 ≤ st.mTrackLen →
      (ProcessOne.loop host range track analyse sEnd fuel s st).1 = some true ∧
      (ProcessOne.loop host range track analyse sEnd fuel s st).2.mProgressVal
        = st.mProgressVal + ((1 + (if st.mProcStereo then 1 else 0) : ℚ)
            * ((sEnd - s : Int) : ℚ)
            / ((st.mNumTracks : ℚ) * (st.mSteps : ℚ) * st.mTrackLen)) ∧
      ∃ evs, (ProcessOne.loop host range track analyse sEnd fuel s st).2.log = st.log ++ evs ∧
        Rising st.mProgressVal
          (ProcessOne.loop host range track analyse sEnd fuel s st).2.mProgressVal
          (reports evs) := by
  intro fuel
  induction fuel with
  | zero =>
    intro s st hs hf _ _
    have : s = sEnd := by omega
    subst this
    simp only [ProcessOne.loop, lt_irrefl, if_false, sub_self, Int.cast_zero, mul_zero,
      zero_div, add_zero, true_and]
    exact ⟨[], by simp, Rising.none _⟩
  | succ fuel ih =>
    intro s st hs hf hcap hL
    by_cases hlt : s < sEnd
    · obtain ⟨hb1, -, -, hb4⟩ := blockLen_bounds track sEnd s st hlt hcap hbest
      obtain ⟨h1, h2, h3⟩ := ProcessOne.turn_spec host range analyse s
        (ProcessOne.blockLen track sEnd s st) st
      have hc : ProcessOne.turnCancelled host range s (ProcessOne.blockLen track sEnd s st) st
          = false := hcancel _ _
      rw [hc] at h1 h3
      have hv := turnValue_exact range s (ProcessOne.blockLen track sEnd s st) st hne hreads
      have hk := ProcessOne.turn_passKept host range analyse s
        (ProcessOne.blockLen track sEnd s st) st
      obtain ⟨ih1, ih2, evs, ih3, ih4⟩ := ih (s + (ProcessOne.blockLen track sEnd s st : Int))
        (ProcessOne.turn host range analyse s (ProcessOne.blockLen track sEnd s st) st).2
        hb4 (by omega) (by rw [hk.mTrackBufferCapacity]; exact hcap)
        (by rw [hk.mTrackLen]; exact hL)
      rw [hk.mProcStereo, hk.mNumTracks, hk.mSteps, hk.mTrackLen, h2, hv] at ih2
      have ht : ∃ tevs, (ProcessOne.turn host range analyse s
          (ProcessOne.blockLen track sEnd s st) st).2.log = st.log ++ tevs ∧
          reports tevs = [ProcessOne.turnValue range s (ProcessOne.blockLen track sEnd s st) st] :=
        ⟨_, h3, reports_turn _ _ _ _ _ _⟩
      obtain ⟨tevs, ht1, ht2⟩ := ht
      have hinc : st.mProgressVal
          ≤ ProcessOne.turnValue range s (ProcessOne.blockLen track sEnd s st) st := by
        rw [hv]
        have : (0 : ℚ) ≤ (1 + (if st.mProcStereo then 1 else 0) : ℚ)
            * ((ProcessOne.blockLen track sEnd s st : ℕ) : ℚ)
            / ((st.mNumTracks : ℚ) * (st.mSteps : ℚ) * st.mTrackLen) := by
          apply div_nonneg
          · apply mul_nonneg
            · split <;> norm_num
            · exact Nat.cast_nonneg _
          · exact mul_nonneg (mul_nonneg (Nat.cast_nonneg _) (Nat.cast_nonneg _)) hL
        linarith
      simp only [ProcessOne.loop, hlt, if_true, h1, Bool.not_false, Bool.not_true,
        Bool.false_eq_true, if_false]
      refine ⟨ih1, ?_, tevs ++ evs, by rw [ih3, ht1, List.append_assoc], ?_⟩
      · rw [ih2]
        push_cast
        ring
      · rw [reports_append, ht2]
        rw [h2] at ih4
        exact (Rising.one hinc).join ih4
    · have : s = sEnd := by omega
      subst this
      simp only [ProcessOne.loop, lt_irrefl, if_false, sub_self, Int.cast_zero, mul_zero,
        zero_div, add_zero, true_and]
      exact ⟨[], by simp, Rising.none _⟩

theorem ProcessOne_curT [Mul α] (host : Host α) (fuel : Nat) (range : List WaveTrack)
    (analyse : Bool) (st : EffectLoudness α) :
    (ProcessOne host fuel range analyse st).2.mCurT0 = st.mCurT0 ∧
    (ProcessOne host fuel range analyse st).2.mCurT1 = st.mCurT1 := by
  cases range with
  | nil => exact ⟨rfl, rfl⟩
  | cons c cs =>
    simp only [ProcessOne]
    split
    · exact ⟨rfl, rfl⟩
    · have h := block_loop_passKept host (c :: cs) c analyse (c.TimeToLongSamples st.mCurT1)
        fuel (c.TimeToLongSamples st.mCurT0)
        { st with mTrackLen :=
            ((c.TimeToLongSamples st.mCurT1 - c.TimeToLongSamples st.mCurT0 : Int) : ℚ) }
      exact ⟨h.mCurT0, h.mCurT1⟩

/-- With complete reads, a callback that never cancels, positive block sizes
and enough fuel, a pass over a non-empty range returns true and its reports
rise by `(1 + mProcStereo) / (GetNumWaveTracks * mSteps)`. -/
theorem ProcessOne_progress [Mul α] (host : Host α) (fuel : Nat) (track : WaveTrack)
    (others : List WaveTrack) (analyse : Bool) (st : EffectLoudness α)
    (hT : st.mCurT0 < st.mCurT1)
    (hrange : track.TimeToLongSamples st.mCurT0 < track.TimeToLongSamples st.mCurT1)
    (hcap : 1 ≤ st.mTrackBufferCapacity)
    (hbest : ∀ p, 1 ≤ track.GetBestBlockSize p)
    (hreads : ∀ ch ∈ track :: others, ∀ pos len, ch.numCopied pos len = (len : Int))
    (hcancel : ∀ h v, host.TotalProgress h v = false)
    (hfuel : (track.TimeToLongSamples st.mCurT1 - track.TimeToLongSamples st.mCurT0).toNat
      ≤ fuel) :
    (ProcessOne host fuel (track :: others) analyse st).1 = some true ∧
    (ProcessOne host fuel (track :: others) analyse st).2.mProgressVal
      = st.mProgressVal + (1 + (if st.mProcStereo then 1 else 0) : ℚ)
          / ((st.mNumTracks : ℚ) * (st.mSteps : ℚ)) ∧
    ∃ evs, (ProcessOne host fuel (track :: others) analyse st).2.log = st.log ++ evs ∧
      Rising st.mProgressVal
        (ProcessOne host fuel (track :: others) analyse st).2.mProgressVal (reports evs) := by
  have hg : ¬ st.mCurT1 ≤ st.mCurT0 := not_le.2 hT
  have hLpos : (0 : ℚ)
      < ((track.TimeToLongSamples st.mCurT1 - track.TimeToLongSamples st.mCurT0 : Int) : ℚ) := by
    have : (0 : Int) < track.TimeToLongSamples st.mCurT1 - track.TimeToLongSamples st.mCurT0 := by
      omega
    exact_mod_cast this
  obtain ⟨h1, h2, evs, h3, h4⟩ := block_loop_progress host (track :: others) track analyse
    (track.TimeToLongSamples st.mCurT1) (by simp) hreads hcancel hbest fuel
    (track.TimeToLongSamples st.mCurT0)
    { st with mTrackLen :=
        ((track.TimeToLongSamples st.mCurT1 - track.TimeToLongSamples st.mCurT0 : Int) : ℚ) }
    (le_of_lt hrange) hfuel hcap (le_of_lt hLpos)
  simp only [ProcessOne, hg, if_false]
  refine ⟨h1, ?_, evs, h3, h4⟩
  rw [h2]
  simp only
  rw [mul_div_mul_right _ _ (ne_of_gt hLpos)]

theorem stereoWeight_cast (range : List WaveTrack) :
    (1 + (if decide (range.length > 1) = true then 1 else 0) : ℚ) = (stereoWeight range : ℚ) := by
  unfold stereoWeight
  by_cases h : range.length > 1
  · simp [h]; norm_num
  · simp [h]

theorem PassReady.congr_ready {a b : EffectLoudness α} {fuel : Nat} {p : WaveTrack × List WaveTrack}
    (hk : Kept a b) (h : PassReady b fuel p) : PassReady a fuel p := by
  have e0 : curT0 a p.1 = curT0 b p.1 := by simp only [curT0, hk.mT0]
  have e1 : curT1 a p.1 = curT1 b p.1 := by simp only [curT1, hk.mT1]
  unfold PassReady
  rw [e0, e1]
  exact h

/-- The two passes of a track that is ready: both return true and the
reports rise by `stereoWeight / GetNumWaveTracks`. -/
theorem Process_applied_progress [Mul α] [Div α] [One α] (host : Host α) (fuel : Nat)
    (track : WaveTrack) (range : List WaveTrack) (st : EffectLoudness α)
    (hready : PassReady st fuel (track, range))
    (hcap : 1 ≤ st.mTrackBufferCapacity)
    (hcancel : ∀ h v, host.TotalProgress h v = false) :
    (Process.analysed host fuel track range st).1 = some true ∧
    (Process.applied host fuel track range st).1 = some true ∧
    (Process.applied host fuel track range st).2.mProgressVal
      = st.mProgressVal + (stereoWeight range : ℚ) / (st.mNumTracks : ℚ) ∧
    ∃ evs, (Process.applied host fuel track range st).2.log = st.log ++ evs ∧
      Rising st.mProgressVal (Process.applied host fuel track range st).2.mProgressVal
        (reports evs) := by
  obtain ⟨⟨others, ho⟩, hreads, hT, hrange, hfuel, hbest⟩ := hready
  simp only at ho hreads hT hrange hfuel hbest
  subst ho
  have kp := Process_prepare_kept track (track :: others) st
  obtain ⟨a1, a2, evs1, a3, a4⟩ := ProcessOne_progress host fuel track others true
    (Process.prepare track (track :: others) st) hT hrange
    (by rw [kp.mTrackBufferCapacity]; exact hcap) hbest hreads hcancel hfuel
  have k1 := Process_analysed_kept host fuel track (track :: others) st
  obtain ⟨c0, c1⟩ := ProcessOne_curT host fuel (track :: others) true
    (Process.prepare track (track :: others) st)
  obtain ⟨d0, d1, -⟩ := ProcessOne_procStereo host fuel (track :: others) true
    (Process.prepare track (track :: others) st)
  have hT2 : (Process.setMult (Process.analysed host fuel track (track :: others) st).2).mCurT0
      < (Process.setMult (Process.analysed host fuel track (track :: others) st).2).mCurT1 := by
    show (Process.analysed host fuel track (track :: others) st).2.mCurT0
      < (Process.analysed host fuel track (track :: others) st).2.mCurT1
    simp only [Process.analysed, c0, c1]
    exact hT
  have e0 : (Process.setMult (Process.analysed host fuel track (track :: others) st).2).mCurT0
      = curT0 st track := c0
  have e1 : (Process.setMult (Process.analysed host fuel track (track :: others) st).2).mCurT1
      = curT1 st track := c1
  obtain ⟨b1, b2, evs2, b3, b4⟩ := ProcessOne_progress host fuel track others false
    (Process.setMult (Process.analysed host fuel track (track :: others) st).2) hT2
    (by rw [e0, e1]; exact hrange)
    (by
      show 1 ≤ (Process.analysed host fuel track (track :: others) st).2.mTrackBufferCapacity
      rw [k1.mTrackBufferCapacity]; exact hcap)
    hbest hreads hcancel (by rw [e0, e1]; exact hfuel)
  have m0 : (Process.setMult (Process.analysed host fuel track (track :: others) st).2).log
      = (Process.analysed host fuel track (track :: others) st).2.log := rfl
  have m1 : (Process.setMult
      (Process.analysed host fuel track (track :: others) st).2).mProgressVal
      = (Process.analysed host fuel track (track :: others) st).2.mProgressVal := rfl
  have m2 : (Process.setMult
      (Process.analysed host fuel track (track :: others) st).2).mProcStereo
      = decide ((track :: others).length > 1) := d0
  have m3 : (Process.setMult (Process.analysed host fuel track (track :: others) st).2).mSteps
      = 2 := d1
  have m4 : (Process.setMult
      (Process.analysed host fuel track (track :: others) st).2).mNumTracks
      = st.mNumTracks := k1.mNumTracks
  have p0 : (Process.prepare track (track :: others) st).mProgressVal = st.mProgressVal := rfl
  have p1 : (Process.prepare track (track :: others) st).mProcStereo
      = decide ((track :: others).length > 1) := rfl
  have p2 : (Process.prepare track (track :: others) st).mSteps = 2 := rfl
  have p3 : (Process.prepare track (track :: others) st).log = st.log := rfl
  rw [p0, p1, p2, kp.mNumTracks, stereoWeight_cast] at a2
  rw [p0] at a4
  rw [p3] at a3
  rw [m1, m2, m3, m4, stereoWeight_cast] at b2
  rw [m1] at b4
  rw [m0] at b3
  refine ⟨a1, b1, ?_, evs1 ++ evs2, ?_, ?_⟩
  · show (ProcessOne host fuel (track :: others) false
      (Process.setMult (Process.analysed host fuel track (track :: others) st).2)).2.mProgressVal
        = _
    rw [b2]
    show (ProcessOne host fuel (track :: others) true
      (Process.prepare track (track :: others) st)).2.mProgressVal + _ = _
    rw [a2]
    push_cast
    ring
  · show (ProcessOne host fuel (track :: others) false
      (Process.setMult (Process.analysed host fuel track (track :: others) st).2)).2.log = _
    rw [b3]
    show (ProcessOne host fuel (track :: others) true
      (Process.prepare track (track :: others) st)).2.log ++ _ = _
    rw [a3, List.append_assoc]
  · rw [reports_append]
    exact a4.join b4

/-- With every visited track ready and a callback that never cancels, the
track loop returns true and its reports rise by the sum of the weights of the
groups divided by `GetNumWaveTracks`. -/
theorem track_loop_progress [Mul α] [Div α] [One α] (host : Host α) (fuel : Nat)
    (hcancel : ∀ h v, host.TotalProgress h v = false)
    (todo : List (WaveTrack × List WaveTrack)) :
    ∀ st : EffectLoudness α, (∀ p ∈ todo, PassReady st fuel p) →
      1 ≤ st.mTrackBufferCapacity →
      (Process.loop host fuel todo st).1 = some true ∧
      (Process.loop host fuel todo st).2.mProgressVal
        = st.mProgressVal
          + (((todo.map fun p => stereoWeight p.2).sum : Nat) : ℚ) / (st.mNumTracks : ℚ) ∧
      ∃ evs, (Process.loop host fuel todo st).2.log = st.log ++ evs ∧
        Rising st.mProgressVal (Process.loop host fuel todo st).2.mProgressVal
          (reports evs) := by
  induction todo with
  | nil =>
    intro st _ _
    simp only [Process.loop, List.map_nil, List.sum_nil, Nat.cast_zero, zero_div, add_zero,
      true_and]
    exact ⟨[], by simp, Rising.none _⟩
  | cons q rest ih =>
    intro st h hcap
    obtain ⟨track, range⟩ := q
    obtain ⟨a1, a2, a3, evs1, a4, a5⟩ := Process_applied_progress host fuel track range st
      (h (track, range) (List.mem_cons_self _ _)) hcap hcancel
    have k2 := Process_applied_kept host fuel track range st
    obtain ⟨b1, b2, evs2, b3, b4⟩ := ih (Process.applied host fuel track range st).2
      (fun p hp => (h p (List.mem_cons_of_mem _ hp)).congr_ready k2)
      (by rw [k2.mTrackBufferCapacity]; exact hcap)
    rw [Process_loop_cons]
    simp only [a1, a2, if_true]
    refine ⟨b1, ?_, evs1 ++ evs2, by rw [b3, a4, List.append_assoc], ?_⟩
    · rw [b2, a3, k2.mNumTracks]
      simp only [List.map_cons, List.sum_cons]
      push_cast
      ring
    · rw [reports_append]
      exact a5.join b4

theorem foldl_max_ge (l : List Nat) :
    ∀ a : Nat, a ≤ l.foldl max a ∧ ∀ x ∈ l, x ≤ l.foldl max a := by
  induction l with
  | nil => intro a; exact ⟨le_refl _, by simp⟩
  | cons y rest ih =>
    intro a
    obtain ⟨h1, h2⟩ := ih (max a y)
    simp only [List.foldl_cons]
    refine ⟨le_trans (le_max_left a y) h1, ?_⟩
    intro x hx
    rcases List.mem_cons.1 hx with rfl | hx
    · exact le_trans (le_max_right a x) h1
    · exact h2 x hx

/-- In independent mode the weights of the visited ranges sum to the number
of selected tracks. -/
theorem weights_independent (tracks : TrackList) :
    ((processRanges tracks true).map fun p => stereoWeight p.2).sum
      = (selectedTracks tracks).length := by
  simp only [processRanges, if_true, List.map_map]
  generalize selectedTracks tracks = l
  induction l with
  | nil => rfl
  | cons q rest ih =>
    simp only [List.map_cons, List.sum_cons, List.length_cons, ih, Function.comp]
    simp [stereoWeight]
    omega

theorem selectedTracks_cons (g : List WaveTrack) (gs : TrackList) :
    selectedTracks (g :: gs)
      = ((match g with
          | [] => []
          | t :: rest => (t, true) :: rest.map fun c => (c, false)).filter
            fun p => p.1.GetSelected) ++ selectedTracks gs := by
  simp [selectedTracks, List.flatMap_cons, List.filter_append]

/-- In linked mode, when every group has at most two channels that are
selected together, the weights of the visited ranges sum to the number of
selected tracks. -/
theorem weights_linked (tracks : TrackList)
    (h : ∀ g ∈ tracks, g.length ≤ 2 ∧ ∀ a ∈ g, ∀ b ∈ g, a.GetSelected = b.GetSelected) :
    ((processRanges tracks false).map fun p => stereoWeight p.2).sum
      = (selectedTracks tracks).length := by
  induction tracks with
  | nil => rfl
  | cons g gs ih =>
    have ih' := ih (fun g' hg' => h g' (List.mem_cons_of_mem _ hg'))
    obtain ⟨hlen, hsel⟩ := h g (List.mem_cons_self _ _)
    have hpr : processRanges (g :: gs) false
        = (match g with
            | [] => []
            | t :: rest => if t.GetSelected then [(t, t :: rest)] else [])
          ++ processRanges gs false := by
      cases g with
      | nil => simp [processRanges]
      | cons t rest =>
        by_cases hs : t.GetSelected = true <;> simp [processRanges, hs]
    rw [hpr, selectedTracks_cons, List.map_append, List.sum_append, List.length_append, ih']
    congr 1
    cases g with
    | nil => rfl
    | cons t rest =>
      cases rest with
      | nil =>
        by_cases hs : t.GetSelected = true <;> simp [hs, stereoWeight]
      | cons u rest2 =>
        cases rest2 with
        | nil =>
          have hu : u.GetSelected = t.GetSelected := hsel u (by simp) t (by simp)
          by_cases hs : t.GetSelected = true <;> simp [hs, hu, stereoWeight]
        | cons v vs => simp at hlen

theorem selectedTracks_ne_nil {tracks : TrackList} {g : List WaveTrack} {ch : WaveTrack}
    (hg : g ∈ tracks) (hch : ch ∈ g) (hs : ch.GetSelected = true) :
    ∃ b, (ch, b) ∈ selectedTracks tracks := by
  cases g with
  | nil => simp at hch
  | cons t rest =>
    rcases List.mem_cons.1 hch with rfl | hc
    · exact ⟨true, mem_selectedTracks_leader hg hs⟩
    · refine ⟨false, ?_⟩
      simp only [selectedTracks, List.mem_filter, List.mem_flatMap]
      refine ⟨⟨t :: rest, hg, ?_⟩, by simpa using hs⟩
      simp only [List.mem_cons, List.mem_map]
      exact Or.inr ⟨ch, hc, rfl⟩

/-- C7 (as amended): in independent-channel mode, and in linked mode when
every channel group has at most two channels that are selected together, for
an uncancelled two-pass run over selected tracks that all have non-empty
ranges, where every read reports exactly the length requested and
`GetNumWaveTracks` is the number of selected channels (block sizes positive,
enough fuel), `Process` returns true, the progress values passed to the
callback never decrease from one block to the next and the last one is 1. -/
theorem progress_rises_to_one [Mul α] [Div α] [One α] (host : Host α) (fuel : Nat)
    (tracks : TrackList) (st : EffectLoudness α)
    (hN : st.mNumTracks = (selectedTracks tracks).length)
    (hsel : ∃ g ∈ tracks, ∃ ch ∈ g, ch.GetSelected = true)
    (hmode : st.mStereoInd = true ∨
      ∀ g ∈ tracks, g.length ≤ 2 ∧ ∀ a ∈ g, ∀ b ∈ g, a.GetSelected = b.GetSelected)
    (hcancel : ∀ h v, host.TotalProgress h v = false)
    (hreads : ∀ g ∈ tracks, ∀ ch ∈ g, ∀ pos len, ch.numCopied pos len = (len : Int))
    (hblock : ∀ g ∈ tracks, ∀ ch ∈ g,
      1 ≤ ch.GetMaxBlockSize ∧ ∀ pos, 1 ≤ ch.GetBestBlockSize pos)
    (hranges : ∀ g ∈ tracks, ∀ ch ∈ g, ch.GetSelected = true →
      curT0 st ch < curT1 st ch ∧
      ch.TimeToLongSamples (curT0 st ch) < ch.TimeToLongSamples (curT1 st ch) ∧
      (ch.TimeToLongSamples (curT1 st ch) - ch.TimeToLongSamples (curT0 st ch)).toNat ≤ fuel) :
    (Process host fuel tracks st).1 = some true ∧
    ∃ evs, (Process host fuel tracks st).2.log = st.log ++ evs ∧
      List.Chain' (· ≤ ·) (reports evs) ∧
      (reports evs).getLast? = some 1 := by
  obtain ⟨f1, f2, f3, f4, f5⟩ := Process_start_fields host tracks st
  obtain ⟨c1, -, -⟩ := Process_start_buffers host tracks st
  obtain ⟨sc1, -⟩ := scan_spec (selectedTracks tracks)
  obtain ⟨l1, -, -⟩ := Process.start_log host tracks st
  obtain ⟨g0, hg0, ch0, hch0, hs0⟩ := hsel
  obtain ⟨b0, hb0⟩ := selectedTracks_ne_nil hg0 hch0 hs0
  have hNpos : 0 < (selectedTracks tracks).length := List.length_pos_of_mem hb0
  have hcap : 1 ≤ (Process.start host tracks st).mTrackBufferCapacity := by
    rw [c1, sc1]
    refine le_trans (hblock g0 hg0 ch0 hch0).1 ?_
    exact (foldl_max_ge _ 0).2 _ (List.mem_map_of_mem (fun p => p.1.GetMaxBlockSize) hb0)
  have e0 : ∀ t, curT0 (Process.start host tracks st) t = curT0 st t := by
    intro t; simp only [curT0, f2]
  have e1 : ∀ t, curT1 (Process.start host tracks st) t = curT1 st t := by
    intro t; simp only [curT1, f3]
  have hready : ∀ p ∈ processRanges tracks (Process.start host tracks st).mStereoInd,
      PassReady (Process.start host tracks st) fuel p := by
    intro p hp
    unfold PassReady
    rw [e0, e1]
    rcases mem_processRanges hp with ⟨-, h2, hs, g, hg, hpg⟩ | ⟨-, h2, hs, rest, h4⟩
    · refine ⟨⟨[], h2⟩, ?_, (hranges g hg p.1 hpg hs).1, (hranges g hg p.1 hpg hs).2.1,
        (hranges g hg p.1 hpg hs).2.2, (hblock g hg p.1 hpg).2⟩
      intro ch hch
      rw [h2] at hch
      simp only [List.mem_singleton] at hch
      subst hch
      exact hreads g hg _ hpg
    · have hpg : p.1 ∈ p.2 := by rw [h4]; simp
      exact ⟨⟨rest, h4⟩, hreads _ h2, (hranges _ h2 p.1 hpg hs).1,
        (hranges _ h2 p.1 hpg hs).2.1, (hranges _ h2 p.1 hpg hs).2.2, (hblock _ h2 p.1 hpg).2⟩
  have hsum : ((processRanges tracks (Process.start host tracks st).mStereoInd).map
      fun p => stereoWeight p.2).sum = (selectedTracks tracks).length := by
    rw [f1]
    rcases hmode with hm | hm
    · rw [hm]; exact weights_independent tracks
    · cases hi : st.mStereoInd
      · exact weights_linked tracks hm
      · exact weights_independent tracks
  obtain ⟨r1, r2, evs, r3, r4⟩ := track_loop_progress host fuel hcancel _ _ hready hcap
  rw [hsum, f4, f5, hN, zero_add, div_self (by exact_mod_cast (ne_of_gt hNpos))] at r2
  rw [r2, f5] at r4
  rw [l1] at r3
  obtain ⟨p1, -, -, p4⟩ := r4
  simp only [Process]
  rcases hr : Process.loop host fuel
    (processRanges tracks (Process.start host tracks st).mStereoInd)
    (Process.start host tracks st) with ⟨r, st4⟩
  rw [hr] at r1 r3
  simp only at r1 r3
  subst r1
  refine ⟨rfl, evs, r3, p1.chain', ?_⟩
  cases hl : (reports evs).getLast? with
  | none =>
    rw [hl] at p4
    simp at p4
  | some x =>
    rw [hl] at p4
    simpa using p4

/-- A run for the amended C7: a linked stereo pair, both channels selected. -/
theorem progress_rises_to_one_witness :
    (Process demoHost 8 [[demoTrack 0 true 0 8, demoTrack 1 true 0 8]]
      (demoEffect false 2)).1 = some true ∧
    ∃ evs, (Process demoHost 8 [[demoTrack 0 true 0 8, demoTrack 1 true 0 8]]
        (demoEffect false 2)).2.log = (demoEffect false 2).log ++ evs ∧
      List.Chain' (· ≤ ·) (reports evs) ∧
      (reports evs).getLast? = some 1 :=
  progress_rises_to_one demoHost 8 [[demoTrack 0 true 0 8, demoTrack 1 true 0 8]]
    (demoEffect false 2) (by decide)
    ⟨_, List.mem_singleton.2 rfl, demoTrack 0 true 0 8, by simp, rfl⟩
    (Or.inr (by
      intro g hg
      simp only [List.mem_singleton] at hg
      subst hg
      refine ⟨by decide, ?_⟩
      intro a ha b hb
      simp only [List.mem_cons, List.mem_singleton, List.not_mem_nil, or_false] at ha hb
      rcases ha with rfl | rfl <;> rcases hb with rfl | rfl <;> rfl))
    (fun _ _ => rfl)
    (by
      intro g hg ch hch pos len
      simp only [List.mem_singleton] at hg
      subst hg
      simp only [List.mem_cons, List.mem_singleton, List.not_mem_nil, or_false] at hch
      rcases hch with rfl | rfl <;> rfl)
    (by
      intro g hg ch hch
      simp only [List.mem_singleton] at hg
      subst hg
      simp only [List.mem_cons, List.mem_singleton, List.not_mem_nil, or_false] at hch
      rcases hch with rfl | rfl <;> exact ⟨(by decide : 1 ≤ 4), fun _ => (by decide : 1 ≤ 4)⟩)
    (by
      intro g hg ch hch _
      simp only [List.mem_singleton] at hg
      subst hg
      simp only [List.mem_cons, List.mem_singleton, List.not_mem_nil, or_false] at hch
      rcases hch with rfl | rfl <;> refine ⟨by decide!, by decide!, by decide!⟩)

/-- C7 (counterexample): in linked mode with a stereo pair of which only the
leader is selected, `GetNumWaveTracks` is 1, the number of selected channels,
every read is complete, the range `[0, 8)` is not empty and nothing is
cancelled; the run returns true but both channels are processed with the
weight 2, so the reports are 1/2, 1, 3/2, 2 and the last one is not 1. -/
theorem progress_overshoots_counterexample :
    (demoEffect false 1).mNumTracks
      = (selectedTracks [[demoTrack 0 true 0 8, demoTrack 1 false 0 8]]).length ∧
    (Process demoHost 8 [[demoTrack 0 true 0 8, demoTrack 1 false 0 8]]
      (demoEffect false 1)).1 = some true ∧
    reports (Process demoHost 8 [[demoTrack 0 true 0 8, demoTrack 1 false 0 8]]
      (demoEffect false 1)).2.log = [1 / 2, 1, 3 / 2, 2] ∧
    (reports (Process demoHost 8 [[demoTrack 0 true 0 8, demoTrack 1 false 0 8]]
      (demoEffect false 1)).2.log).getLast? ≠ some 1 := by
  refine ⟨by decide, by decide!, by decide!, by decide!⟩

/-- C3 (evaluation of the code): for a linked pair whose first channel reports
100 samples and whose second channel reports 90 for the same load,
`LoadBufferBlock` returns true and leaves `mTrackBufferLen = 90`. -/
theorem LoadBufferBlock_mismatch_returns_true (st : EffectLoudness ℚ) :
    (LoadBufferBlock [shortTrack 0 100, shortTrack 1 90] 0 100 st).1 = true ∧
    (LoadBufferBlock [shortTrack 0 100, shortTrack 1 90] 0 100 st).2.mTrackBufferLen = 90 := by
  refine ⟨LoadBufferBlock_fst _ _ _ _, ?_⟩
  simp [LoadBufferBlock, LoadBufferBlock.loop, WaveTrack.Get, shortTrack, as_size_t]

theorem Process_mRatio [Mul α] [Div α] [One α] (host : Host α) (fuel : Nat)
    (tracks : TrackList) (st : EffectLoudness α) :
    (Process host fuel tracks st).2.mRatio = (Process.setRatio host st).mRatio := by
  have h1 : (Process.start host tracks st).mRatio = (Process.setRatio host st).mRatio := by
    simp only [Process.start, AllocBuffers]
    split <;> rfl
  have h2 := (track_loop_kept host fuel
    (processRanges tracks (Process.start host tracks st).mStereoInd)
    (Process.start host tracks st)).mRatio
  simp only [Process]
  rcases hr : Process.loop host fuel
    (processRanges tracks (Process.start host tracks st).mStereoInd)
    (Process.start host tracks st) with ⟨r, st4⟩
  rw [hr] at h2
  rcases r with _ | b
  · exact h2.trans h1
  · exact h2.trans h1

/-- C5 (evaluation of the code): in loudness mode with the level -100, which
lies inside [-145, 0] and is left as it is by the clamp, `Process` passes
-145 to `DB_TO_LINEAR`, the same value as for the level -145, whereas twice
the clamped level is -200. -/
theorem Process_clamps_doubled_level [Mul α] [Div α] [One α] (host : Host α) (fuel : Nat)
    (tracks : TrackList) (st : EffectLoudness α) :
    (Process host fuel tracks { st with mNormalizeTo := kLoudness, mLUFSLevel := -100 }).2.mRatio
        = host.DB_TO_LINEAR (-145) ∧
    (Process host fuel tracks { st with mNormalizeTo := kLoudness, mLUFSLevel := -145 }).2.mRatio
        = host.DB_TO_LINEAR (-145) ∧
    loudnessDb (-100) = -145 ∧
    TrapDouble (-100) MIN_LUFSLevel MAX_LUFSLevel = -100 ∧
    2 * TrapDouble (-100) MIN_LUFSLevel MAX_LUFSLevel = -200 := by
  have h1 : loudnessDb (-100) = -145 := by
    norm_num [loudnessDb, TrapDouble, MIN_LUFSLevel, MAX_LUFSLevel]
  have h2 : loudnessDb (-145) = -145 := by
    norm_num [loudnessDb, TrapDouble, MIN_LUFSLevel, MAX_LUFSLevel]
  refine ⟨?_, ?_, h1, ?_, ?_⟩
  · rw [Process_mRatio]
    simp only [Process.setRatio, if_true, h1]
  · rw [Process_mRatio]
    simp only [Process.setRatio, if_true, h2]
  · norm_num [TrapDouble, MIN_LUFSLevel, MAX_LUFSLevel]
  · norm_num [TrapDouble, MIN_LUFSLevel, MAX_LUFSLevel]

/-- C6 (evaluation of the code): when the target is RMS, `Process` never
assigns `mRatio`: after the run it still holds the value it had before,
whatever the RMS level is. -/
theorem Process_rms_keeps_stale_ratio [Mul α] [Div α] [One α] (host : Host α) (fuel : Nat)
    (tracks : TrackList) (st : EffectLoudness α) (level : ℚ) :
    (Process host fuel tracks { st with mNormalizeTo := kRMS, mRMSLevel := level }).2.mRatio
      = st.mRatio := by
  rw [Process_mRatio]
  simp [Process.setRatio, kRMS, kLoudness]

/-- C9: a newly constructed `RealtimeEffectState` has its suspend counter
equal to 1, which is strictly positive and not negative, and it is not active. -/
theorem RealtimeEffectState_new_suspended (effect : Nat) :
    (RealtimeEffectState.new effect).mSuspendCount = 1 ∧
    0 < (RealtimeEffectState.new effect).mSuspendCount ∧
    ¬ (RealtimeEffectState.new effect).mSuspendCount < 0 ∧
    (RealtimeEffectState.new effect).IsActive = false := by
  simp [RealtimeEffectState.new, RealtimeEffectState.IsActive]

end Loudness
